import Mathlib

/-!
Verification development for the makepkg build orchestrator.

Shallow embedding of the core data model and algorithms:
cache fingerprinting (pkg/cache.go, the cache part of pkg/env/merged.go),
cache write merging, reverse-dependency invalidation, the Kahn level
scheduler (pkg/build/dependency.go, pkg/dependency.go), the environment
manager (main.go, pkg/env/merged.go) and the toolchain binding
(pkg/env/merged.go, pkg/toolchain.go).

Filesystem state is modelled per package as an optional cache record plus
a flag for the source directory; I/O never fails in the model (the Go code
surfaces read/write errors separately, which no claim here is about).
Go maps are modelled as association lists in insertion order; where Go map
iteration order is observable it is unspecified in Go, and the embedding
fixes a deterministic order (noted at each such definition).
-/

namespace Makepkg

/-- Cache record persisted as `makepkg.json` (type `Info` in the cache package). -/
structure Info where
  url : String
  build : String
  install : String
  env : List String
  host : String
  sysroot : String
deriving Repr, DecidableEq

/-- Package definition (`config.Package`): the fields the verified claims use. -/
structure Package where
  name : String
  url : String
  build : String
  install : String
  clean : String := ""
  env : List String := []
  dependsOn : List String := []
deriving Repr, DecidableEq

/-- On-disk state of one package directory `<buildDir>/<pkg>/`:
the optional `makepkg.json` contents and whether `source/` exists. -/
structure PkgFiles where
  cacheFile : Option Info
  sourceExists : Bool
deriving Repr, DecidableEq

/-- Translation of `stringSlicesEqual` (length check, then element-wise
comparison), rendered as the equivalent structural recursion. -/
def stringSlicesEqual : List String → List String → Bool
  | [], [] => true
  | a :: as, b :: bs => a == b && stringSlicesEqual as bs
  | _, _ => false

/-- Naive rendering of Go `%q` (the claims never constrain the escaping of
special characters inside the reason strings, only which reason is chosen). -/
def goQuote (s : String) : String := "\"" ++ s ++ "\""

/-- Translation of `cache.checkCommonCacheChanges`. -/
def checkCommonCacheChanges (cache : Info) (pkg : Package) (sysroot host : String) :
    Bool × String :=
  if !stringSlicesEqual cache.env pkg.env then (true, "env vars changed")
  else if cache.host ≠ host then
    (true, "host changed from " ++ goQuote cache.host ++ " to " ++ goQuote host)
  else if cache.sysroot ≠ sysroot then
    (true, "sysroot changed from " ++ goQuote cache.sysroot ++ " to " ++ goQuote sysroot)
  else (false, "")

/-- Translation of `cache.needsRebuildWithReason`.  `st.cacheFile = none`
models "no cache file exists" (the Go `Read` returns `nil, nil` there). -/
def needsRebuildWithReason (st : PkgFiles) (pkg : Package) (sysroot host : String) :
    Bool × String :=
  match st.cacheFile with
  | none => (true, "no cache exists")
  | some cache =>
    if cache.url ≠ pkg.url then
      (true, "URL changed from " ++ goQuote cache.url ++ " to " ++ goQuote pkg.url)
    else if cache.build ≠ pkg.build then (true, "build script changed")
    else
      match checkCommonCacheChanges cache pkg sysroot host with
      | (true, reason) => (true, reason)
      | (false, _) =>
        if !st.sourceExists then (true, "source directory doesn't exist")
        else (false, "")

/-- The rebuild conditions of the specification, in the order it lists them. -/
inductive RebuildReason where
  | noCache | urlChanged | buildChanged | envChanged | hostChanged
  | sysrootChanged | sourceMissing
deriving Repr, DecidableEq

/-- Spec-side definition, written from the claim's words: the first of the
five ordered conditions that fires ("common change" split into its three
constituents in the order the spec lists them), `none` if none does. -/
def specRebuildReason (st : PkgFiles) (pkg : Package) (sysroot host : String) :
    Option RebuildReason :=
  match st.cacheFile with
  | none => some .noCache
  | some cache =>
    if cache.url ≠ pkg.url then some .urlChanged
    else if cache.build ≠ pkg.build then some .buildChanged
    else if cache.env ≠ pkg.env then some .envChanged
    else if cache.host ≠ host then some .hostChanged
    else if cache.sysroot ≠ sysroot then some .sysrootChanged
    else if st.sourceExists = false then some .sourceMissing
    else none

/-- The reason string the code reports for each spec-side condition. -/
def rebuildReasonText (st : PkgFiles) (pkg : Package) (sysroot host : String) :
    RebuildReason → String
  | .noCache => "no cache exists"
  | .urlChanged =>
    "URL changed from " ++ goQuote (((st.cacheFile).map Info.url).getD "") ++
      " to " ++ goQuote pkg.url
  | .buildChanged => "build script changed"
  | .envChanged => "env vars changed"
  | .hostChanged =>
    "host changed from " ++ goQuote (((st.cacheFile).map Info.host).getD "") ++
      " to " ++ goQuote host
  | .sysrootChanged =>
    "sysroot changed from " ++ goQuote (((st.cacheFile).map Info.sysroot).getD "") ++
      " to " ++ goQuote sysroot
  | .sourceMissing => "source directory doesn't exist"

lemma stringSlicesEqual_eq (a b : List String) : stringSlicesEqual a b = decide (a = b) := by
  induction a generalizing b with
  | nil => cases b <;> simp [stringSlicesEqual]
  | cons x xs ih =>
    cases b with
    | nil => simp [stringSlicesEqual]
    | cons y ys => by_cases h : x = y <;> simp [stringSlicesEqual, ih, h]

/-- C1: `NeedsRebuild` fires exactly on the spec's five ordered conditions,
reporting the first match as the reason, and a `false` answer certifies a
cache record whose `url`, `build`, `env`, `host`, `sysroot` equal those of
the query and an existing source directory. -/
theorem claim_C1 (st : PkgFiles) (pkg : Package) (sysroot host : String) :
    (needsRebuildWithReason st pkg sysroot host =
      match specRebuildReason st pkg sysroot host with
      | none => (false, "")
      | some r => (true, rebuildReasonText st pkg sysroot host r)) ∧
    ((needsRebuildWithReason st pkg sysroot host).1 = false →
      ∃ c, st.cacheFile = some c ∧ c.url = pkg.url ∧ c.build = pkg.build ∧
        c.env = pkg.env ∧ c.host = host ∧ c.sysroot = sysroot ∧
        st.sourceExists = true) := by
  obtain ⟨cf, src⟩ := st
  cases cf with
  | none =>
    simp [needsRebuildWithReason, specRebuildReason, rebuildReasonText]
  | some c =>
    by_cases hu : c.url = pkg.url
    · by_cases hb : c.build = pkg.build
      · by_cases he : c.env = pkg.env
        · by_cases hh : c.host = host
          · by_cases hs : c.sysroot = sysroot
            · cases src <;>
                simp [needsRebuildWithReason, specRebuildReason, rebuildReasonText,
                  checkCommonCacheChanges, stringSlicesEqual_eq, hu, hb, he, hh, hs]
            · simp [needsRebuildWithReason, specRebuildReason, rebuildReasonText,
                checkCommonCacheChanges, stringSlicesEqual_eq, hu, hb, he, hh, hs]
          · simp [needsRebuildWithReason, specRebuildReason, rebuildReasonText,
              checkCommonCacheChanges, stringSlicesEqual_eq, hu, hb, he, hh]
        · simp [needsRebuildWithReason, specRebuildReason, rebuildReasonText,
            checkCommonCacheChanges, stringSlicesEqual_eq, hu, hb, he]
      · simp [needsRebuildWithReason, specRebuildReason, rebuildReasonText,
          checkCommonCacheChanges, hu, hb]
    · simp [needsRebuildWithReason, specRebuildReason, rebuildReasonText, hu]

/-- The record `WriteBuild`/`WriteInstall` start from: the existing cache
contents, or a zero `Info` when no cache file exists. -/
def readOrEmpty (st : Option Info) : Info :=
  st.getD { url := "", build := "", install := "", env := [], host := "", sysroot := "" }

/-- Translation of `cache.WriteBuild`: the record it persists. -/
def writeBuild (st : Option Info) (pkg : Package) (sysroot host : String) : Info :=
  { readOrEmpty st with
    url := pkg.url, build := pkg.build, env := pkg.env, host := host, sysroot := sysroot }

/-- Translation of `cache.WriteInstall`: the record it persists. -/
def writeInstall (st : Option Info) (pkg : Package) (sysroot host : String) : Info :=
  { readOrEmpty st with
    install := pkg.install, env := pkg.env, host := host, sysroot := sysroot }

/-- C6: `WriteBuild` then `WriteInstall` yields a record with `build`/`url`
from the first call, `install` from the second, `env`/`host`/`sysroot` from
the latest call; `WriteBuild` preserves a previously written `install` and
`WriteInstall` preserves previously written `build` and `url`. -/
theorem claim_C6 (st : Option Info) (pkg : Package)
    (s1 h1 s2 h2 : String) :
    writeInstall (some (writeBuild st pkg s1 h1)) pkg s2 h2 =
      { url := pkg.url, build := pkg.build, install := pkg.install,
        env := pkg.env, host := h2, sysroot := s2 } ∧
    (writeBuild st pkg s1 h1).install = (readOrEmpty st).install ∧
    (writeInstall st pkg s1 h1).build = (readOrEmpty st).build ∧
    (writeInstall st pkg s1 h1).url = (readOrEmpty st).url := by
  refine ⟨?_, rfl, rfl, rfl⟩
  simp [writeInstall, writeBuild, readOrEmpty]

/-! ## Environment manager (`env.Manager`, main.go)

`Manager.baseEnv` is a Go `map[string]string`; the model is an association
list with unique keys.  Where the Go map's iteration order is observable
(`ToSlice`), Go leaves it unspecified and the model fixes insertion order;
every property proved about such an order-sensitive function is
order-independent (it concerns which key/value pairs survive, not where). -/

/-- A `Manager`'s state: association list, one entry per key. -/
abbrev EnvMap := List (String × String)

/-- Translation of `Manager.Get`. -/
def mgrGet (m : EnvMap) (key : String) : Option String :=
  (m.find? (fun kv => kv.1 == key)).map (fun kv => kv.2)

/-- Translation of `Manager.Set` (Go map assignment: replace the entry for
an existing key in place, append a fresh key). -/
def mgrSet : EnvMap → String → String → EnvMap
  | [], key, value => [(key, value)]
  | kv :: rest, key, value =>
    if kv.1 = key then (key, value) :: rest else kv :: mgrSet rest key value

/-- The whitespace class of Go `unicode.IsSpace` restricted to ASCII
(the full class also holds a few Unicode spaces no claim exercises). -/
def goIsSpace (c : Char) : Bool :=
  c = ' ' || c = '\t' || c = '\n' || c = '\x0b' || c = '\x0c' || c = '\r'

/-- Translation of Go `strings.TrimSpace`. -/
def goTrimSpace (s : String) : String :=
  (((s.toList.dropWhile goIsSpace).reverse.dropWhile goIsSpace).reverse).asString

/-- Translation of `Manager.PrependToVar`:
`if existing, ok := baseEnv[key]; ok && TrimSpace(existing) != ""`. -/
def mgrPrependToVar (m : EnvMap) (key value sep : String) : EnvMap :=
  match mgrGet m key with
  | some existing =>
    if goTrimSpace existing ≠ "" then mgrSet m key (value ++ sep ++ existing)
    else mgrSet m key value
  | none => mgrSet m key value

lemma mgrGet_mgrSet_self (m : EnvMap) (key value : String) :
    mgrGet (mgrSet m key value) key = some value := by
  induction m with
  | nil => simp [mgrGet, mgrSet, List.find?]
  | cons kv rest ih =>
    by_cases h : kv.1 = key
    · simp [mgrGet, mgrSet, List.find?, h]
    · have hb : (kv.1 == key) = false := by simp [h]
      simpa [mgrGet, mgrSet, List.find?, h, hb] using ih

lemma mgrGet_mgrSet_other (m : EnvMap) (key value k' : String) (h : k' ≠ key) :
    mgrGet (mgrSet m key value) k' = mgrGet m k' := by
  induction m with
  | nil =>
    have hb : (key == k') = false := by simp [Ne.symm h]
    simp [mgrGet, mgrSet, List.find?, hb]
  | cons kv rest ih =>
    by_cases hk : kv.1 = key
    · have hb : (key == k') = false := by simp [Ne.symm h]
      simp [mgrGet, mgrSet, List.find?, hk, hb]
    · by_cases hkv : kv.1 = k'
      · simp [mgrGet, mgrSet, List.find?, hk, hkv, h]
      · have hb : (kv.1 == k') = false := by simp [hkv]
        simpa [mgrGet, mgrSet, List.find?, hk, hkv, hb] using ih

/-- C8 counterexample: a key holding a single space is nonempty, so the
claim demands `value + sep + current`, but the code trims whitespace and
stores plain `value`. -/
theorem claim_C8_counterexample :
    mgrGet (mgrPrependToVar [("K", " ")] "K" "v" ":") "K" = some "v" ∧
    mgrGet (mgrPrependToVar [("K", " ")] "K" "v" ":") "K" ≠ some ("v" ++ ":" ++ " ") := by
  decide

/-- C8 (amended): `prepend(key, value, sep)` stores `value + sep + current`
when the current value exists and is nonempty after trimming whitespace,
and plain `value` otherwise (key absent, or current whitespace-only);
all other keys are untouched. -/
theorem claim_C8_amended (m : EnvMap) (key value sep : String) :
    mgrGet (mgrPrependToVar m key value sep) key =
      some (match mgrGet m key with
            | some existing =>
              if goTrimSpace existing ≠ "" then value ++ sep ++ existing else value
            | none => value) ∧
    (∀ k', k' ≠ key → mgrGet (mgrPrependToVar m key value sep) k' = mgrGet m k') := by
  constructor
  · unfold mgrPrependToVar
    cases hget : mgrGet m key with
    | none => simp [mgrGet_mgrSet_self]
    | some existing =>
      by_cases h : goTrimSpace existing ≠ "" <;> simp [h, mgrGet_mgrSet_self]
  · intro k' hk'
    unfold mgrPrependToVar
    cases hget : mgrGet m key with
    | none => simp [mgrGet_mgrSet_other m _ _ _ hk']
    | some existing =>
      by_cases h : goTrimSpace existing ≠ "" <;>
        simp [h, mgrGet_mgrSet_other m _ _ _ hk']

/-! ## Layered environment (`mergedEnv`, pkg/env/merged.go) -/

/-- A layered environment: the stack of layers, topmost first
(`envs[0]` is the layer `Set` writes to and `Get` consults first). -/
def LayeredEnv := List EnvMap

/-- Translation of `mergedEnv.Get`: query layers top to bottom. -/
def mergedGet (envs : LayeredEnv) (key : String) : Option String :=
  envs.findSome? (fun e => mgrGet e key)

/-- Translation of `Manager.ToSlice` (`k + "=" + v` per entry); Go map
iteration order is unspecified, the model uses insertion order. -/
def mgrToSlice (m : EnvMap) : List String :=
  m.map (fun kv => kv.1 ++ "=" ++ kv.2)

/-- Go `strings.SplitN(kv, "=", 2)` restricted to the two-part case:
key before the first `=`, value after; `none` when no `=` occurs. -/
def splitKV (kv : String) : Option (String × String) :=
  let cs := kv.toList
  let k := cs.takeWhile (fun c => c ≠ '=')
  match cs.drop k.length with
  | '=' :: rest => some (k.asString, rest.asString)
  | _ => none

/-- The dedup loop inside `mergedEnv.ToSlice`: keep an entry when its key
was not seen yet, skip entries without `=`. -/
def dedupKV (seen : List String) : List String → List String
  | [] => []
  | kv :: rest =>
    match splitKV kv with
    | some (k, _) =>
      if k ∈ seen then dedupKV seen rest else kv :: dedupKV (k :: seen) rest
    | none => dedupKV seen rest

/-- Translation of `mergedEnv.ToSlice`: scan layers from the bottom
(`len-1`) up to the top (`0`), keep the first occurrence of each key,
then reverse the whole list. -/
def mergedToSlice (envs : LayeredEnv) : List String :=
  (dedupKV [] ((envs.reverse).flatMap mgrToSlice)).reverse

/-- C4 evaluation at the failing input: with a key `A` set to `1` in the
top layer and `2` in the bottom layer, the snapshot keeps the bottom
layer's entry `A=2`, while `Get` answers `1` from the top layer — the
snapshot disagrees with `get` and does not carry the topmost value. -/
theorem claim_C4_eval :
    mergedToSlice [[("A", "1")], [("A", "2")]] = ["A=2"] ∧
    mergedGet [[("A", "1")], [("A", "2")]] "A" = some "1" ∧
    mergedToSlice [[("A", "1")], [("A", "2")]] ≠ ["A=1"] := by
  decide

/-! ## Variable substitution

Translation of the regex replacement behind `Subst`
(`regexp.MustCompile` of dollar-brace-name-brace with name `[^}]+`,
`ReplaceAllStringFunc`): scan left to right; at each position try to match
a maximal `$`-`{`-name-`}` occurrence (the name is one or more non-`}`
characters, taken greedily — after a maximal run the next character is `}`
or the end of input, so the regex never backtracks); on a match emit the
stored value, or the literal match on a miss, and continue after it;
otherwise emit one character and move on.  The recursion carries fuel
(consumed one unit per step, each step consumes at least one character),
so an initial fuel of the input length always suffices.

The name character class `[^}]` is rendered by `notBrace`. -/
def notBrace (x : Char) : Bool := x ≠ '\x7d'

/-- The scanning pass described above. -/
def substAux (lookup : String → Option String) : Nat → List Char → List Char
  | _, [] => []
  | 0, l => l
  | fuel+1, c :: cs =>
    if c = '$' then
      match cs with
      | [] => c :: substAux lookup fuel cs
      | d :: rest =>
        if d = '\x7b' then
          let nm := rest.takeWhile notBrace
          if nm.isEmpty then c :: substAux lookup fuel cs
          else
            match rest.drop nm.length with
            | [] => c :: substAux lookup fuel cs
            | e :: tail =>
              if e = '\x7d' then
                match lookup nm.asString with
                | some v => v.toList ++ substAux lookup fuel tail
                | none => c :: '\x7b' :: (nm ++ '\x7d' :: substAux lookup fuel tail)
              else c :: substAux lookup fuel cs
        else c :: substAux lookup fuel cs
    else c :: substAux lookup fuel cs

/-- One whole-string substitution pass over a character list. -/
def substList (lookup : String → Option String) (l : List Char) : List Char :=
  substAux lookup l.length l

/-- `Subst` on strings, for a given variable lookup. -/
def substStr (lookup : String → Option String) (s : String) : String :=
  (substList lookup s.toList).asString

/-- Translation of `Manager.Subst` (and the identical `mergedEnv.Subst` /
`EnvSubst.Subst`, which differ only in where the lookup reads from). -/
def mgrSubst (m : EnvMap) (s : String) : String := substStr (mgrGet m) s

/-- C5 counterexample: with `A = "$\x7bB\x7d"` and `B = "x"` stored, one
pass maps `"$\x7bA\x7d"` to `"$\x7bB\x7d"` and a second pass maps that to
`"x"`, so substitution is not idempotent. -/
theorem claim_C5_counterexample :
    mgrSubst [("A", "$\x7bB\x7d"), ("B", "x")]
        (mgrSubst [("A", "$\x7bB\x7d"), ("B", "x")] "$\x7bA\x7d") ≠
      mgrSubst [("A", "$\x7bB\x7d"), ("B", "x")] "$\x7bA\x7d" ∧
    mgrSubst [("A", "$\x7bB\x7d"), ("B", "x")] "$\x7bA\x7d" = "$\x7bB\x7d" ∧
    mgrSubst [("A", "$\x7bB\x7d"), ("B", "x")]
        (mgrSubst [("A", "$\x7bB\x7d"), ("B", "x")] "$\x7bA\x7d") = "x" := by
  decide

/-! ## Go path handling

The toolchain binding goes through `filepath.Join` / `Abs` / `Dir`, which
are lexical on slash-separated paths; the model implements Go's
`path.Clean` algorithm directly. -/

/-- Splitting on a separator character (the behavior of `strings.Split`
for one-character separators), structurally on the character list. -/
def splitChar (sep : Char) : List Char → List (List Char)
  | [] => [[]]
  | c :: cs =>
    if c = sep then [] :: splitChar sep cs
    else
      match splitChar sep cs with
      | [] => [[c]]
      | g :: gs => (c :: g) :: gs

/-- Translation of Go `path/filepath.Clean` (slash separators): drop empty
and `.` elements, resolve `..` against the stack, keep leading `..` on
relative paths, drop it at the root. -/
def goClean (path : String) : String :=
  if path = "" then "."
  else
    let rooted := path.toList.head? = some '/'
    let segs := (splitChar '/' path.toList).map List.asString
    let stack := segs.foldl (fun (st : List String) seg =>
      if seg = "" ∨ seg = "." then st
      else if seg = ".." then
        match st with
        | [] => if rooted then [] else [".."]
        | top :: rest => if top = ".." then seg :: top :: rest else rest
      else seg :: st) []
    match stack.reverse with
    | [] => if rooted then "/" else "."
    | cs => (if rooted then "/" else "") ++ String.intercalate "/" cs

/-- Translation of Go `filepath.Join`: elements from the first nonempty one
are joined with `/` and cleaned; all empty gives `""`.  (Go keeps interior
empty elements before cleaning; `Clean` discards the resulting empty
segments, so filtering first is equivalent.) -/
def goJoinList (parts : List String) : String :=
  let ne := parts.filter (fun s => s ≠ "")
  if ne.isEmpty then "" else goClean (String.intercalate "/" ne)

/-- Two-argument `filepath.Join`. -/
def goJoin (a b : String) : String := goJoinList [a, b]

/-- Translation of Go `filepath.Dir`: everything up to and including the
last `/`, cleaned (`.` when there is no slash). -/
def goDir (p : String) : String :=
  goClean (((p.toList.reverse.dropWhile (fun c => c ≠ '/')).reverse).asString)

/-- Translation of Go `filepath.Abs` relative to a working directory:
clean an absolute path, join a relative one onto the working directory. -/
def goAbs (cwd p : String) : String :=
  if p.toList.head? = some '/' then goClean p else goJoin cwd p

/-! ## Toolchain binding (pkg/env/merged.go `UpdateEnvForToolchain`,
pkg/toolchain.go `NewToolchainFromConfig`) -/

/-- The fixed list of standard cross tools (identical in both files). -/
def crossPrefixPrograms : List String :=
  ["ar", "as", "ld", "nm", "objcopy", "objdump", "ranlib", "strip",
   "addr2line", "c++filt", "dlltool", "elfedit", "gprof", "readelf",
   "size", "strings", "gcc", "g++"]

/-- The alias table (a Go map with two entries; its iteration order is
unspecified but the two aliases touch disjoint variables). -/
def programAliases : List (String × String) := [("cc", "gcc"), ("c++", "g++")]

/-- Translation of `toolToEnvVar` / `ToolchainTool.EnvVar`: uppercase,
then `-` to `_` and `+` to `X` (character-wise, as `strings.ReplaceAll`
on single characters is). -/
def toolToEnvVar (nm : String) : String :=
  ((nm.toList.map Char.toUpper).map
    (fun c => if c = '-' then '_' else if c = '+' then 'X' else c)).asString

/-- Toolchain configuration fields used by the binding
(`config.Toolchain`; `crossPfx` renders the `cross_prefix` field). -/
structure ToolchainCfg where
  filePath : String := ""
  bin : String := ""
  crossPfx : String := ""
  extraPrograms : List String := []

/-- Translation of `UpdateEnvForToolchain` (pkg/env/merged.go 146-183),
with the working directory for `filepath.Abs` made explicit.  Note the
source computes `crossPrefixPath := filepath.Join(binPath, subst(prefix))`
once and then string-appends each tool name to it. -/
def updateEnvForToolchain (cwd : String) (env : EnvMap) (tc : ToolchainCfg) : EnvMap :=
  let env0 := mgrSet env "FILE_DIR" (goDir tc.filePath)
  let binPath := if tc.bin ≠ "" then goAbs cwd (mgrSubst env0 tc.bin) else ""
  let cpPath := goJoin binPath (mgrSubst env0 tc.crossPfx)
  let env1 :=
    if tc.crossPfx ≠ "" then mgrSet env0 "CROSS_PREFIX" (mgrSubst env0 tc.crossPfx)
    else env0
  let env2 := crossPrefixPrograms.foldl
    (fun e prog => mgrSet e (toolToEnvVar prog) (cpPath ++ prog)) env1
  let env3 := programAliases.foldl
    (fun e al =>
      match mgrGet e (toolToEnvVar al.2) with
      | some targetPath => mgrSet e (toolToEnvVar al.1) targetPath
      | none => e) env2
  tc.extraPrograms.foldl
    (fun e prog => mgrSet e (toolToEnvVar prog) (goJoin binPath prog)) env3

/-- Translation of the tool-path computation in `NewToolchainFromConfig`
(pkg/toolchain.go 116): `filepath.Join(toolBin, crossPrefix+prog)`. -/
def ntcToolPath (bin cpfx prog : String) : String := goJoin bin (cpfx ++ prog)

/-- C7 evaluation at the failing input: with `bin = "/usr/bin"` and an
empty `cross_prefix`, `UpdateEnvForToolchain` sets `GCC` to
`"/usr/bingcc"` (it string-appends the tool name to `join(bin, prefix)`),
while the claim's `join(bin, cross_prefix + T)` — which is what
`NewToolchainFromConfig` computes — gives `"/usr/bin/gcc"`. -/
theorem claim_C7_eval :
    mgrGet (updateEnvForToolchain "/" [] { bin := "/usr/bin" }) "GCC" =
      some "/usr/bingcc" ∧
    ntcToolPath "/usr/bin" "" "gcc" = "/usr/bin/gcc" ∧
    ("/usr/bingcc" : String) ≠ "/usr/bin/gcc" := by
  decide

/-! ## Recipe environment derivation (C10)

`env.NewManager` (main.go 240-248) seeds the manager from the process
environment; the per-package snapshot handed to `bash` via `cmd.Env`
(`Builder.runScript`) is exactly `ToSlice` of the derived environment.
The process environment is modelled as a lookup function `procEnv`. -/

/-- Translation of `env.NewManager`: the base map holds exactly
`PATH = os.Getenv("PATH")`. -/
def newManager (procEnv : String → String) : EnvMap :=
  [("PATH", procEnv "PATH")]

/-- Translation of the environment seeding in `build.NewBuilder`
(part of the build driver): the variables it `Set`s, in source order. -/
def builderBaseEnv (procEnv : String → String)
    (cfgFilePath arch buildDir sysroot makepkgCmd host : String) : EnvMap :=
  let m0 := newManager procEnv
  let m1 := mgrSet m0 "PKGS_ROOT" (goDir cfgFilePath)
  let m2 := mgrSet m1 "PKGS_ARCH" arch
  let m3 := mgrSet m2 "BUILD_DIR" (mgrSubst m2 buildDir)
  let m4 := mgrSet m3 "SYS_ROOT" (mgrSubst m3 sysroot)
  let m5 := mgrSet m4 "MAKEPKG" makepkgCmd
  let m6 := if host ≠ "" then mgrSet m5 "PKGS_HOST" (mgrSubst m5 host) else m5
  mgrSet m6 "BUILD_ARTIFACTS" (goJoin buildDir "artifacts")

/-- Translation of `Manager.EnvironmentForPackage` (main.go 303-342). -/
def environmentForPackage (m : EnvMap) (pkgName : String) (pkgEnv : List String)
    (sysroot : String) (makeJobs : Int) : EnvMap :=
  let e0 := mgrSet m "PKG_NAME" pkgName
  let e1 := if makeJobs > 0 then mgrSet e0 "MAKEFLAGS" ("-j" ++ toString makeJobs) else e0
  let e2 :=
    if sysroot ≠ "" then
      let a0 := mgrPrependToVar e1 "PKG_CONFIG_PATH"
        (goJoinList [sysroot, "usr", "lib", "pkgconfig"]) ":"
      let a1 := mgrSet a0 "PKG_CONFIG_SYSROOT_DIR" sysroot
      let a2 := mgrPrependToVar a1 "CFLAGS" ("-I" ++ sysroot ++ "/usr/include") " "
      let a3 := mgrPrependToVar a2 "CXXFLAGS" ("-I" ++ sysroot ++ "/usr/include") " "
      let a4 := mgrPrependToVar a3 "LDFLAGS"
        ("-L" ++ sysroot ++ "/usr/lib -L" ++ sysroot ++ "/lib") " "
      let a5 := mgrPrependToVar a4 "LIBRARY_PATH" (goJoinList [sysroot, "usr", "lib"]) ":"
      let a6 := mgrPrependToVar a5 "LIBRARY_PATH" (goJoinList [sysroot, "lib"]) ":"
      let a7 := mgrPrependToVar a6 "LD_LIBRARY_PATH" (goJoinList [sysroot, "usr", "lib"]) ":"
      mgrPrependToVar a7 "LD_LIBRARY_PATH" (goJoinList [sysroot, "lib"]) ":"
    else e1
  pkgEnv.foldl (fun e kv =>
    match splitKV kv with
    | some p => mgrSet e p.1 (mgrSubst e p.2)
    | none => e) e2

/-- Model of `Env.AddToEnv` applied to the toolchain layer: `Set` each of
a list of pairs (the Go map's iteration order is unspecified; the layer is
passed here as an explicit list derived from the configuration only). -/
def addAllToEnv (e : EnvMap) (vars : List (String × String)) : EnvMap :=
  vars.foldl (fun e kv => mgrSet e kv.1 kv.2) e

/-- The snapshot `Builder.buildPackage` passes to `runScript` as
`cmd.Env`: the per-package environment derived from the builder base,
layered with the toolchain variables unless the package is native. -/
def deriveSnapshot (procEnv : String → String)
    (cfgFilePath arch buildDir sysroot makepkgCmd host : String)
    (toolVars : List (String × String)) (native : Bool)
    (pkgName : String) (pkgEnv : List String) (makeJobs : Int) : List String :=
  let base := builderBaseEnv procEnv cfgFilePath arch buildDir sysroot makepkgCmd host
  let pe := environmentForPackage base pkgName pkgEnv sysroot makeJobs
  let pe := if native then pe else addAllToEnv pe toolVars
  mgrToSlice pe

/-- C10: the manager is seeded with exactly the process `PATH`, and the
recipe snapshot is a function of `PATH` and the explicit configuration
alone — two runs whose process environments agree on `PATH` derive
identical per-package snapshots, whatever else differs. -/
theorem claim_C10 :
    (∀ procEnv : String → String, newManager procEnv = [("PATH", procEnv "PATH")]) ∧
    (∀ procEnv1 procEnv2 : String → String, procEnv1 "PATH" = procEnv2 "PATH" →
      ∀ cfgFilePath arch buildDir sysroot makepkgCmd host toolVars native
        pkgName pkgEnv makeJobs,
        deriveSnapshot procEnv1 cfgFilePath arch buildDir sysroot makepkgCmd host
            toolVars native pkgName pkgEnv makeJobs =
          deriveSnapshot procEnv2 cfgFilePath arch buildDir sysroot makepkgCmd host
            toolVars native pkgName pkgEnv makeJobs) := by
  refine ⟨fun _ => rfl, ?_⟩
  intro procEnv1 procEnv2 h cfgFilePath arch buildDir sysroot makepkgCmd host toolVars
    native pkgName pkgEnv makeJobs
  simp only [deriveSnapshot, builderBaseEnv, newManager, h]

/-- C10 witness: two process environments agreeing on `PATH` but differing
on `HOME` yield the same snapshot for a concrete configuration. -/
theorem claim_C10_witness :
    ((fun _ => "/bin") : String → String) "PATH" =
      ((fun k => if k = "HOME" then "/root" else "/bin") : String → String) "PATH" ∧
    deriveSnapshot (fun _ => "/bin") "/cfg/pkgs.yaml" "x86" "/b" "" "mk" ""
        [("CC", "gcc")] false "zlib" ["FOO=1"] 2 =
      deriveSnapshot (fun k => if k = "HOME" then "/root" else "/bin")
        "/cfg/pkgs.yaml" "x86" "/b" "" "mk" "" [("CC", "gcc")] false "zlib" ["FOO=1"] 2 := by
  refine ⟨by decide, ?_⟩
  exact claim_C10.2 _ _ (by decide) _ _ _ _ _ _ _ _ _ _ _

/-! ## Reverse-dependency graph and transitive invalidation
(`cache.findDependents`, `cache.InvalidateDependents`) -/

/-- Edge relation of the catalog: `depEdge pkgs a b` holds when some
package named `b` directly depends on `a`. -/
def depEdge (pkgs : List Package) (a b : String) : Prop :=
  ∃ p ∈ pkgs, p.name = b ∧ a ∈ p.dependsOn

/-- Translation of the reverse adjacency both `findDependents`
(`directDependents`) and the resolvers (`reverseGraph`) build: for each
package `p` in catalog order, one entry `p.name` per occurrence of `d`
in `p.DependsOn`. -/
def reverseGraph (pkgs : List Package) (d : String) : List String :=
  pkgs.flatMap (fun p => (p.dependsOn.filter (fun x => x == d)).map (fun _ => p.name))

lemma mem_reverseGraph {pkgs : List Package} {a b : String} :
    b ∈ reverseGraph pkgs a ↔ depEdge pkgs a b := by
  simp only [reverseGraph, List.mem_flatMap, List.mem_map, List.mem_filter, depEdge]
  constructor
  · rintro ⟨p, hp, ⟨x, ⟨hx, hxa⟩, hname⟩⟩
    exact ⟨p, hp, hname, by simpa [show x = a from by simpa using hxa] using hx⟩
  · rintro ⟨p, hp, hname, hdep⟩
    exact ⟨p, hp, ⟨a, ⟨hdep, by simp⟩, hname⟩⟩

/-- Total number of dependency edges in the catalog (used only to size the
fuel of the loop embeddings). -/
def totalEdges (pkgs : List Package) : Nat :=
  (pkgs.map (fun p => p.dependsOn.length)).sum

lemma reverseGraph_length_le (pkgs : List Package) (d : String) :
    (reverseGraph pkgs d).length ≤ totalEdges pkgs := by
  induction pkgs with
  | nil => simp [reverseGraph, totalEdges]
  | cons p rest ih =>
    simp only [reverseGraph, totalEdges, List.flatMap_cons, List.length_append,
      List.map_cons, List.sum_cons, List.length_map] at *
    have h1 : (p.dependsOn.filter (fun x => x == d)).length ≤ p.dependsOn.length :=
      List.length_filter_le _ _
    omega

lemma reverseGraph_mem_names {pkgs : List Package} {d x : String}
    (h : x ∈ reverseGraph pkgs d) : x ∈ pkgs.map Package.name := by
  rcases mem_reverseGraph.1 h with ⟨p, hp, hname, -⟩
  exact List.mem_map.2 ⟨p, hp, hname⟩

/-- The push inside the BFS loop of `findDependents`: enqueue a dependent
and record it unless it is already visited. -/
def bfsPush (visited : List String) (qr : List String × List String) (dep : String) :
    List String × List String :=
  if dep ∈ visited then qr else (qr.1 ++ [dep], qr.2 ++ [dep])

/-- Translation of the BFS loop of `cache.findDependents`: pop the queue,
skip visited nodes, otherwise mark visited and push unvisited dependents
onto the queue and the result.  The Go loop runs until the queue is empty;
the fuel (one unit per pop) is sized at the call site so it never runs out. -/
def bfsAux (g : String → List String) :
    Nat → List String → List String → List String → List String
  | 0, _, _, result => result
  | fuel+1, visited, queue, result =>
    match queue with
    | [] => result
    | current :: rest =>
      if current ∈ visited then bfsAux g fuel visited rest result
      else
        let visited' := current :: visited
        let st := (g current).foldl (bfsPush visited') (rest, result)
        bfsAux g fuel visited' st.1 st.2

/-- Translation of `cache.findDependents`. -/
def findDependents (pkgs : List Package) (pkgName : String) : List String :=
  bfsAux (reverseGraph pkgs) ((pkgs.length + 1) * (totalEdges pkgs + 1) + 1)
    [] [pkgName] []

/-- Translation of `cache.Invalidate`: remove one package's cache file
(the source directory and everything else is untouched). -/
def invalidateCache (fs : String → PkgFiles) (n : String) : String → PkgFiles :=
  fun x => if x = n then { cacheFile := none, sourceExists := (fs x).sourceExists } else fs x

/-- Translation of `cache.InvalidateDependents`: invalidate every entry of
`findDependents` in order. -/
def invalidateDependents (fs : String → PkgFiles) (pkgs : List Package)
    (pkgName : String) : String → PkgFiles :=
  (findDependents pkgs pkgName).foldl invalidateCache fs

/-- The one-step reachability relation underlying the BFS: `b` is listed
among the direct dependents of `a`. -/
def stepRel (g : String → List String) (a b : String) : Prop := b ∈ g a

lemma bfsPush_foldl (visited : List String) (ds : List String) :
    ∀ (q r : List String),
      (∀ x, x ∈ (ds.foldl (bfsPush visited) (q, r)).1 ↔
        x ∈ q ∨ (x ∈ ds ∧ ¬ x ∈ visited)) ∧
      (∀ x, x ∈ (ds.foldl (bfsPush visited) (q, r)).2 ↔
        x ∈ r ∨ (x ∈ ds ∧ ¬ x ∈ visited)) ∧
      (ds.foldl (bfsPush visited) (q, r)).1.length ≤ q.length + ds.length := by
  induction ds with
  | nil => intro q r; simp
  | cons d ds ih =>
    intro q r
    by_cases hd : d ∈ visited
    · have : bfsPush visited (q, r) d = (q, r) := by simp [bfsPush, hd]
      rw [List.foldl_cons, this]
      refine ⟨fun x => ?_, fun x => ?_, ?_⟩
      · rw [(ih q r).1 x]
        constructor
        · rintro (h | ⟨h1, h2⟩)
          · exact Or.inl h
          · exact Or.inr ⟨List.mem_cons_of_mem _ h1, h2⟩
        · rintro (h | ⟨h1, h2⟩)
          · exact Or.inl h
          · rcases List.mem_cons.1 h1 with rfl | h1
            · exact absurd hd h2
            · exact Or.inr ⟨h1, h2⟩
      · rw [(ih q r).2.1 x]
        constructor
        · rintro (h | ⟨h1, h2⟩)
          · exact Or.inl h
          · exact Or.inr ⟨List.mem_cons_of_mem _ h1, h2⟩
        · rintro (h | ⟨h1, h2⟩)
          · exact Or.inl h
          · rcases List.mem_cons.1 h1 with rfl | h1
            · exact absurd hd h2
            · exact Or.inr ⟨h1, h2⟩
      · have := (ih q r).2.2
        simp only [List.length_cons]
        omega
    · have : bfsPush visited (q, r) d = (q ++ [d], r ++ [d]) := by simp [bfsPush, hd]
      rw [List.foldl_cons, this]
      refine ⟨fun x => ?_, fun x => ?_, ?_⟩
      · rw [(ih (q ++ [d]) (r ++ [d])).1 x]
        simp only [List.mem_append, List.mem_cons, List.not_mem_nil, or_false]
        constructor
        · rintro ((h | rfl) | ⟨h1, h2⟩)
          · exact Or.inl h
          · exact Or.inr ⟨Or.inl rfl, hd⟩
          · exact Or.inr ⟨Or.inr h1, h2⟩
        · rintro (h | ⟨rfl | h1, h2⟩)
          · exact Or.inl (Or.inl h)
          · exact Or.inl (Or.inr rfl)
          · exact Or.inr ⟨h1, h2⟩
      · rw [(ih (q ++ [d]) (r ++ [d])).2.1 x]
        simp only [List.mem_append, List.mem_cons, List.not_mem_nil, or_false]
        constructor
        · rintro ((h | rfl) | ⟨h1, h2⟩)
          · exact Or.inl h
          · exact Or.inr ⟨Or.inl rfl, hd⟩
          · exact Or.inr ⟨Or.inr h1, h2⟩
        · rintro (h | ⟨rfl | h1, h2⟩)
          · exact Or.inl (Or.inl h)
          · exact Or.inl (Or.inr rfl)
          · exact Or.inr ⟨h1, h2⟩
      · have := (ih (q ++ [d]) (r ++ [d])).2.2
        simp only [List.length_append, List.length_cons, List.length_nil] at *
        omega

lemma filter_not_mem_cons_length {U visited : List String} {c : String}
    (hU : U.Nodup) (hcU : c ∈ U) (hcv : ¬ c ∈ visited) :
    (U.filter (fun x => ¬ x ∈ c :: visited)).length + 1 =
      (U.filter (fun x => ¬ x ∈ visited)).length := by
  induction U with
  | nil => cases hcU
  | cons u U ih =>
    rcases List.nodup_cons.1 hU with ⟨huU, hUnd⟩
    rcases List.mem_cons.1 hcU with heq | hcU'
    · subst heq
      have hcong : U.filter (fun x => ¬ x ∈ c :: visited) =
          U.filter (fun x => ¬ x ∈ visited) := by
        apply List.filter_congr
        intro x hx
        have hxc : x ≠ c := fun h => huU (h ▸ hx)
        simp [List.mem_cons, hxc]
      simp only [List.filter_cons, decide_eq_true_eq]
      rw [if_neg (by simp), if_pos hcv, hcong]
      simp
    · have hcu : c ≠ u := fun h => huU (h ▸ hcU')
      have ih' := ih hUnd hcU'
      by_cases hu : u ∈ visited
      · simp only [List.filter_cons, decide_eq_true_eq]
        rw [if_neg (by simp [List.mem_cons, hu]), if_neg (by simp [hu])]
        exact ih'
      · simp only [List.filter_cons, decide_eq_true_eq]
        rw [if_pos (by simp [List.mem_cons, Ne.symm hcu, hu]), if_pos hu]
        simp only [List.length_cons]
        omega

/-- Main invariant lemma for the BFS of `findDependents`, over a generic
adjacency `g` bounded by the universe `names` and out-degree sum `E`.
`V` abstracts the final visited set: everything on hand lands in `V`,
`V` is closed under `g`, and membership in `V` and in the returned result
agree up to `start`; every returned node is a strict transitive dependent. -/
lemma bfsAux_spec (names : List String) (E : Nat) (start : String)
    (g : String → List String)
    (hgE : ∀ c, (g c).length ≤ E)
    (hgU : ∀ c x, x ∈ g c → x ∈ names) :
    ∀ (fuel : Nat) (visited queue result : List String),
      (∀ x ∈ queue, x = start ∨ x ∈ names) →
      (∀ x ∈ visited, x = start ∨ x ∈ names) →
      visited.Nodup →
      ((((start :: names).dedup).filter (fun x => ¬ x ∈ visited)).length * (E + 1)
          + queue.length ≤ fuel) →
      (start ∈ visited ∨ (visited = [] ∧ queue = [start] ∧ result = [])) →
      (∀ v ∈ visited, ∀ d ∈ g v, d ∈ visited ∨ d ∈ queue) →
      (∀ x ∈ result, x ≠ start ∧ Relation.TransGen (stepRel g) start x) →
      (∀ x ∈ queue, x = start ∨ Relation.TransGen (stepRel g) start x) →
      (∀ x ∈ visited, x = start ∨ Relation.TransGen (stepRel g) start x) →
      (∀ x ∈ visited, x = start ∨ x ∈ result) →
      (∀ x ∈ queue, x = start ∨ x ∈ result) →
      ∃ V : List String,
        (∀ x ∈ visited, x ∈ V) ∧ (∀ x ∈ queue, x ∈ V) ∧
        (∀ v ∈ V, ∀ d ∈ g v, d ∈ V) ∧
        (∀ x ∈ V, x = start ∨ x ∈ bfsAux g fuel visited queue result) ∧
        (∀ x ∈ bfsAux g fuel visited queue result,
          x ≠ start ∧ Relation.TransGen (stepRel g) start x) := by
  intro fuel
  induction fuel with
  | zero =>
    intro visited queue result hq hv hvnd hm hstart hcl hra hrq hrv hvres hqres
    have hq0 : queue = [] := by
      cases queue with
      | nil => rfl
      | cons a t => simp [List.length_cons] at hm
    subst hq0
    refine ⟨visited, fun x hx => hx, by simp, ?_, ?_, ?_⟩
    · intro v hv' d hd
      rcases hcl v hv' d hd with h | h
      · exact h
      · cases h
    · intro x hx
      simpa [bfsAux] using hvres x hx
    · intro x hx
      exact hra x (by simpa [bfsAux] using hx)
  | succ f ih =>
    intro visited queue result hq hv hvnd hm hstart hcl hra hrq hrv hvres hqres
    cases queue with
    | nil =>
      refine ⟨visited, fun x hx => hx, by simp, ?_, ?_, ?_⟩
      · intro v hv' d hd
        rcases hcl v hv' d hd with h | h
        · exact h
        · cases h
      · intro x hx
        simpa [bfsAux] using hvres x hx
      · intro x hx
        exact hra x (by simpa [bfsAux] using hx)
    | cons current rest =>
      by_cases hcur : current ∈ visited
      · have heq : bfsAux g (f+1) visited (current :: rest) result =
            bfsAux g f visited rest result := by
          simp [bfsAux, hcur]
        have hm' : ((((start :: names).dedup).filter
            (fun x => ¬ x ∈ visited)).length * (E + 1) + rest.length ≤ f) := by
          simp only [List.length_cons] at hm
          omega
        obtain ⟨V, h1, h2, h3, h4, h5⟩ := ih visited rest result
          (fun x hx => hq x (List.mem_cons_of_mem _ hx)) hv hvnd hm'
          (by
            rcases hstart with h | ⟨hv0, -, -⟩
            · exact Or.inl h
            · exact absurd hcur (by simp [hv0]))
          (by
            intro v hv' d hd
            rcases hcl v hv' d hd with h | h
            · exact Or.inl h
            · rcases List.mem_cons.1 h with rfl | h
              · exact Or.inl hcur
              · exact Or.inr h)
          hra
          (fun x hx => hrq x (List.mem_cons_of_mem _ hx))
          hrv hvres
          (fun x hx => hqres x (List.mem_cons_of_mem _ hx))
        refine ⟨V, h1, ?_, h3, ?_, ?_⟩
        · intro x hx
          rcases List.mem_cons.1 hx with rfl | hx
          · exact h1 x hcur
          · exact h2 x hx
        · intro x hx
          rw [heq]
          exact h4 x hx
        · intro x hx
          rw [heq] at hx
          exact h5 x hx
      · have heq : bfsAux g (f+1) visited (current :: rest) result =
            bfsAux g f (current :: visited)
              ((g current).foldl (bfsPush (current :: visited)) (rest, result)).1
              ((g current).foldl (bfsPush (current :: visited)) (rest, result)).2 := by
          simp [bfsAux, hcur]
        obtain ⟨hmem1, hmem2, hlen⟩ := bfsPush_foldl (current :: visited) (g current) rest result
        have hstart' : start ∈ current :: visited := by
          rcases hstart with h | ⟨-, hq0, -⟩
          · exact List.mem_cons_of_mem _ h
          · have : current = start := (List.cons_eq_cons.1 hq0).1
            simp [this]
        have hreach : ∀ x, x ∈ g current → Relation.TransGen (stepRel g) start x := by
          intro x hx
          rcases hrq current (List.mem_cons_self _ _) with h | h
          · exact Relation.TransGen.single (show stepRel g start x from h ▸ hx)
          · exact Relation.TransGen.tail h hx
        have hq' : ∀ x ∈ ((g current).foldl (bfsPush (current :: visited)) (rest, result)).1,
            x = start ∨ x ∈ names := by
          intro x hx
          rcases (hmem1 x).1 hx with h | ⟨h, -⟩
          · exact hq x (List.mem_cons_of_mem _ h)
          · exact Or.inr (hgU current x h)
        have hv' : ∀ x ∈ current :: visited, x = start ∨ x ∈ names := by
          intro x hx
          rcases List.mem_cons.1 hx with rfl | hx
          · exact hq x (List.mem_cons_self _ _)
          · exact hv x hx
        have hvnd' : (current :: visited).Nodup := List.nodup_cons.2 ⟨hcur, hvnd⟩
        have hm' : ((((start :: names).dedup).filter
            (fun x => ¬ x ∈ current :: visited)).length * (E + 1) +
            ((g current).foldl (bfsPush (current :: visited)) (rest, result)).1.length ≤ f) := by
          have hcU : current ∈ (start :: names).dedup :=
            List.mem_dedup.2 (by
              rcases hq current (List.mem_cons_self _ _) with h | h
              · simp [h]
              · exact List.mem_cons_of_mem _ h)
          have hkey := filter_not_mem_cons_length (List.nodup_dedup _) hcU hcur
          have hgc : (g current).length ≤ E := hgE current
          have hmul : ((((start :: names).dedup).filter
              (fun x => ¬ x ∈ current :: visited)).length + 1) * (E + 1) =
              (((start :: names).dedup).filter
                (fun x => ¬ x ∈ current :: visited)).length * (E + 1) + (E + 1) := by
            ring
          rw [← hkey] at hm
          rw [hmul] at hm
          simp only [List.length_cons] at hm
          omega
        have hstartQ : ∀ x, x ∈ g current → ¬ x ∈ current :: visited → x ≠ start :=
          fun x _ hxnv hxs => hxnv (hxs ▸ hstart')
        obtain ⟨V, h1, h2, h3, h4, h5⟩ := ih (current :: visited)
          ((g current).foldl (bfsPush (current :: visited)) (rest, result)).1
          ((g current).foldl (bfsPush (current :: visited)) (rest, result)).2
          hq' hv' hvnd' hm'
          (Or.inl hstart')
          (by
            intro v hv'' d hd
            rcases List.mem_cons.1 hv'' with heqv | hvv
            · have hd' : d ∈ g current := heqv ▸ hd
              by_cases hdm : d ∈ current :: visited
              · exact Or.inl hdm
              · exact Or.inr ((hmem1 d).2 (Or.inr ⟨hd', hdm⟩))
            · rcases hcl v hvv d hd with h | h
              · exact Or.inl (List.mem_cons_of_mem _ h)
              · rcases List.mem_cons.1 h with heqd | h
                · exact Or.inl (by simp [heqd])
                · exact Or.inr ((hmem1 d).2 (Or.inl h)))
          (by
            intro x hx
            rcases (hmem2 x).1 hx with h | ⟨h, hxnv⟩
            · exact hra x h
            · exact ⟨hstartQ x h hxnv, hreach x h⟩)
          (by
            intro x hx
            rcases (hmem1 x).1 hx with h | ⟨h, -⟩
            · exact hrq x (List.mem_cons_of_mem _ h)
            · exact Or.inr (hreach x h))
          (by
            intro x hx
            rcases List.mem_cons.1 hx with rfl | hx
            · exact hrq x (List.mem_cons_self _ _)
            · exact hrv x hx)
          (by
            intro x hx
            rcases List.mem_cons.1 hx with rfl | hx
            · rcases hqres x (List.mem_cons_self _ _) with h | h
              · exact Or.inl h
              · exact Or.inr ((hmem2 x).2 (Or.inl h))
            · rcases hvres x hx with h | h
              · exact Or.inl h
              · exact Or.inr ((hmem2 x).2 (Or.inl h)))
          (by
            intro x hx
            rcases (hmem1 x).1 hx with h | ⟨h, hxnv⟩
            · rcases hqres x (List.mem_cons_of_mem _ h) with h' | h'
              · exact Or.inl h'
              · exact Or.inr ((hmem2 x).2 (Or.inl h'))
            · exact Or.inr ((hmem2 x).2 (Or.inr ⟨h, hxnv⟩)))
        refine ⟨V, ?_, ?_, h3, ?_, ?_⟩
        · intro x hx
          exact h1 x (List.mem_cons_of_mem _ hx)
        · intro x hx
          rcases List.mem_cons.1 hx with rfl | hx
          · exact h1 x (List.mem_cons_self _ _)
          · exact h2 x ((hmem1 x).2 (Or.inl hx))
        · intro x hx
          rw [heq]
          exact h4 x hx
        · intro x hx
          rw [heq] at hx
          exact h5 x hx

lemma wf_not_rel_self {α : Sort _} {r : α → α → Prop} (h : WellFounded r) :
    ∀ a, ¬ r a a := by
  intro a
  exact h.induction (C := fun x => ¬ r x x) a (fun x ih hxx => ih x hxx hxx)

/-- Characterization of `findDependents`: it returns exactly the strict
transitive dependents of `start` (never `start` itself, even on a cyclic
catalog), up to list duplication. -/
lemma findDependents_spec (pkgs : List Package) (start : String) :
    (∀ x ∈ findDependents pkgs start,
      x ≠ start ∧ Relation.TransGen (depEdge pkgs) start x) ∧
    (∀ x, Relation.TransGen (depEdge pkgs) start x →
      x = start ∨ x ∈ findDependents pkgs start) := by
  have hmes : ((((start :: pkgs.map Package.name).dedup).filter
      (fun x => ¬ x ∈ ([] : List String))).length * (totalEdges pkgs + 1) + 1 ≤
      (pkgs.length + 1) * (totalEdges pkgs + 1) + 1) := by
    have h1 : ((start :: pkgs.map Package.name).dedup).filter
        (fun x => ¬ x ∈ ([] : List String)) =
        (start :: pkgs.map Package.name).dedup := by simp
    have h2 : ((start :: pkgs.map Package.name).dedup).length ≤ pkgs.length + 1 := by
      have := (List.dedup_sublist (start :: pkgs.map Package.name)).length_le
      simpa using this
    rw [h1]
    have := Nat.mul_le_mul_right (totalEdges pkgs + 1) h2
    omega
  obtain ⟨V, hvV, hqV, hclV, hVres, hsound⟩ :=
    bfsAux_spec (pkgs.map Package.name) (totalEdges pkgs) start (reverseGraph pkgs)
      (reverseGraph_length_le pkgs) (fun _ x hx => reverseGraph_mem_names hx)
      ((pkgs.length + 1) * (totalEdges pkgs + 1) + 1) [] [start] []
      (by intro x hx; exact Or.inl (by simpa using hx))
      (by intro x hx; cases hx)
      List.nodup_nil
      hmes
      (Or.inr ⟨rfl, rfl, rfl⟩)
      (by intro v hv; cases hv)
      (by intro x hx; cases hx)
      (by intro x hx; exact Or.inl (by simpa using hx))
      (by intro x hx; cases hx)
      (by intro x hx; cases hx)
      (by intro x hx; exact Or.inl (by simpa using hx))
  have hstartV : start ∈ V := hqV start (by simp)
  constructor
  · intro x hx
    have h := hsound x hx
    exact ⟨h.1, h.2.mono (fun a b hab => mem_reverseGraph.1 hab)⟩
  · intro x htx
    have hxV : x ∈ V := by
      induction htx with
      | single h => exact hclV start hstartV _ (mem_reverseGraph.2 h)
      | tail _ h2 ih => exact hclV _ ih _ (mem_reverseGraph.2 h2)
    exact hVres x hxV

lemma foldl_invalidateCache (l : List String) :
    ∀ (fs : String → PkgFiles) (x : String),
      (l.foldl invalidateCache fs) x =
        if x ∈ l then { cacheFile := none, sourceExists := (fs x).sourceExists }
        else fs x := by
  induction l with
  | nil => intro fs x; simp
  | cons n rest ih =>
    intro fs x
    rw [List.foldl_cons, ih]
    by_cases hx : x = n
    · subst hx
      by_cases hr : x ∈ rest <;> simp [invalidateCache, hr, List.mem_cons]
    · by_cases hr : x ∈ rest <;> simp [invalidateCache, hx, hr, List.mem_cons]

/-- C9: on any catalog, cyclic or not, `InvalidateDependents(p)` touches
only packages strictly reachable from `p` in the reverse-dependency graph
— a touched package is a transitive dependent and only loses its cache
file — and the cache file of `p` itself is never removed. -/
theorem claim_C9 (pkgs : List Package) (fs : String → PkgFiles) (p : String) :
    invalidateDependents fs pkgs p p = fs p ∧
    (∀ x, invalidateDependents fs pkgs p x ≠ fs x →
      x ≠ p ∧ Relation.TransGen (depEdge pkgs) p x ∧
      invalidateDependents fs pkgs p x =
        { cacheFile := none, sourceExists := (fs x).sourceExists }) := by
  have hfd := findDependents_spec pkgs p
  constructor
  · rw [invalidateDependents, foldl_invalidateCache]
    have hp : ¬ p ∈ findDependents pkgs p := fun h => (hfd.1 p h).1 rfl
    simp [hp]
  · intro x hne
    rw [invalidateDependents, foldl_invalidateCache] at hne
    by_cases hx : x ∈ findDependents pkgs p
    · refine ⟨(hfd.1 x hx).1, (hfd.1 x hx).2, ?_⟩
      rw [invalidateDependents, foldl_invalidateCache]
      simp [hx]
    · rw [if_neg hx] at hne
      exact absurd rfl hne

/-- C3: on an acyclic catalog, after `InvalidateDependents(p)` the cache
file of every transitive dependent of `p` is absent, every package's
source tree is untouched, and the only mutation ever applied is removal
of a cache file. -/
theorem claim_C3 (pkgs : List Package) (fs : String → PkgFiles) (p : String)
    (hacyc : WellFounded (depEdge pkgs)) :
    (∀ x, Relation.TransGen (depEdge pkgs) p x →
      (invalidateDependents fs pkgs p x).cacheFile = none) ∧
    (∀ x, (invalidateDependents fs pkgs p x).sourceExists = (fs x).sourceExists) ∧
    (∀ x, invalidateDependents fs pkgs p x = fs x ∨
      invalidateDependents fs pkgs p x =
        { cacheFile := none, sourceExists := (fs x).sourceExists }) := by
  have hfd := findDependents_spec pkgs p
  have hirr : ¬ Relation.TransGen (depEdge pkgs) p p :=
    wf_not_rel_self hacyc.transGen p
  refine ⟨?_, ?_, ?_⟩
  · intro x htx
    rcases hfd.2 x htx with heq | hx
    · rw [heq] at htx
      exact absurd htx hirr
    · rw [invalidateDependents, foldl_invalidateCache]
      simp [hx]
  · intro x
    rw [invalidateDependents, foldl_invalidateCache]
    by_cases hx : x ∈ findDependents pkgs p <;> simp [hx]
  · intro x
    rw [invalidateDependents, foldl_invalidateCache]
    by_cases hx : x ∈ findDependents pkgs p
    · exact Or.inr (by simp [hx])
    · exact Or.inl (by simp [hx])

/-- A two-package catalog: `b` depends on `a`. -/
def pkgA : Package := { name := "a", url := "u", build := "bld", install := "ins" }

/-- The dependent package of the example catalog. -/
def pkgB : Package :=
  { name := "b", url := "u", build := "bld", install := "ins", dependsOn := ["a"] }

/-- The example catalog `[a, b]` with the single edge `a → b`. -/
def pkgsAB : List Package := [pkgA, pkgB]

/-- A filesystem in which every package has a cache file and a source tree. -/
def fsAll : String → PkgFiles :=
  fun _ => { cacheFile := some ⟨"u", "bld", "ins", [], "", ""⟩, sourceExists := true }

lemma depEdge_pkgsAB {a b : String} : depEdge pkgsAB a b ↔ a = "a" ∧ b = "b" := by
  constructor
  · rintro ⟨p, hp, hname, hdep⟩
    rcases List.mem_cons.1 hp with rfl | hp
    · exact absurd hdep (by simp [pkgA])
    · rcases List.mem_cons.1 hp with rfl | hp
      · refine ⟨by simpa [pkgB] using hdep, by simpa [pkgB] using hname.symm⟩
      · cases hp
  · rintro ⟨rfl, rfl⟩
    exact ⟨pkgB, by simp [pkgsAB], rfl, by simp [pkgB]⟩

lemma wf_depEdge_pkgsAB : WellFounded (depEdge pkgsAB) := by
  have acca : Acc (depEdge pkgsAB) "a" := by
    constructor
    intro y hy
    have hb := (depEdge_pkgsAB.1 hy).2
    exact absurd hb (by decide)
  constructor
  intro x
  constructor
  intro y hy
  have hya := (depEdge_pkgsAB.1 hy).1
  rw [hya]
  exact acca

/-- C3 witness: the example catalog is acyclic, and invalidating the
dependents of `a` removes the cache file of `b`. -/
theorem claim_C3_witness :
    WellFounded (depEdge pkgsAB) ∧
    (invalidateDependents fsAll pkgsAB "a" "b").cacheFile = none := by
  refine ⟨wf_depEdge_pkgsAB, ?_⟩
  exact (claim_C3 pkgsAB fsAll "a" wf_depEdge_pkgsAB).1 "b"
    (Relation.TransGen.single (depEdge_pkgsAB.2 ⟨rfl, rfl⟩))

/-! ## Idempotence analysis of substitution (C5) -/

section SubstIdem

variable (lookup : String → Option String)

lemma substAux_nil : ∀ f, substAux lookup f [] = [] := by
  intro f; cases f <;> rfl

lemma substAux_cons_nd (f : Nat) (c : Char) (cs : List Char) (hc : ¬ c = '$') :
    substAux lookup (f+1) (c :: cs) = c :: substAux lookup f cs := by
  simp [substAux, hc]

lemma substAux_dollar_nil (f : Nat) :
    substAux lookup (f+1) ['$'] = '$' :: substAux lookup f [] := by
  simp [substAux]

lemma substAux_dollar_nb (f : Nat) (d : Char) (rest : List Char) (hd : ¬ d = '\x7b') :
    substAux lookup (f+1) ('$' :: d :: rest) = '$' :: substAux lookup f (d :: rest) := by
  simp [substAux, hd]

lemma substAux_empty_name (f : Nat) (rest : List Char)
    (h : (rest.takeWhile notBrace).isEmpty = true) :
    substAux lookup (f+1) ('$' :: '\x7b' :: rest) =
      '$' :: substAux lookup f ('\x7b' :: rest) := by
  simp only [substAux, if_true, h]

lemma substAux_drop_nil (f : Nat) (rest : List Char)
    (h : ¬ (rest.takeWhile notBrace).isEmpty = true)
    (hdrop : rest.drop (rest.takeWhile notBrace).length = []) :
    substAux lookup (f+1) ('$' :: '\x7b' :: rest) =
      '$' :: substAux lookup f ('\x7b' :: rest) := by
  simp only [substAux, if_true, h, if_false, hdrop]
  simp

lemma substAux_drop_ne (f : Nat) (rest : List Char) (e : Char) (tail : List Char)
    (h : ¬ (rest.takeWhile notBrace).isEmpty = true)
    (hdrop : rest.drop (rest.takeWhile notBrace).length = e :: tail)
    (he : ¬ e = '\x7d') :
    substAux lookup (f+1) ('$' :: '\x7b' :: rest) =
      '$' :: substAux lookup f ('\x7b' :: rest) := by
  simp only [substAux, if_true, h, if_false, hdrop]
  simp [he]

lemma substAux_hit (f : Nat) (rest tail : List Char) (v : String)
    (h : ¬ (rest.takeWhile notBrace).isEmpty = true)
    (hdrop : rest.drop (rest.takeWhile notBrace).length = '\x7d' :: tail)
    (hlook : lookup ((rest.takeWhile notBrace).asString) = some v) :
    substAux lookup (f+1) ('$' :: '\x7b' :: rest) =
      v.toList ++ substAux lookup f tail := by
  simp only [substAux, if_true, h, if_false, hdrop, hlook]
  simp

lemma substAux_miss (f : Nat) (rest tail : List Char)
    (h : ¬ (rest.takeWhile notBrace).isEmpty = true)
    (hdrop : rest.drop (rest.takeWhile notBrace).length = '\x7d' :: tail)
    (hlook : lookup ((rest.takeWhile notBrace).asString) = none) :
    substAux lookup (f+1) ('$' :: '\x7b' :: rest) =
      '$' :: '\x7b' :: ((rest.takeWhile notBrace) ++
        '\x7d' :: substAux lookup f tail) := by
  simp only [substAux, if_true, h, if_false, hdrop, hlook]
  simp

lemma substAux_irrel : ∀ (f1 : Nat) (l : List Char) (f2 : Nat),
    l.length ≤ f1 → l.length ≤ f2 →
    substAux lookup f1 l = substAux lookup f2 l := by
  intro f1
  induction f1 with
  | zero =>
    intro l f2 h1 _
    have hl : l = [] := List.length_eq_zero.1 (Nat.le_zero.1 h1)
    subst hl
    rw [substAux_nil, substAux_nil]
  | succ n ih =>
    intro l f2 h1 h2
    cases l with
    | nil => rw [substAux_nil, substAux_nil]
    | cons c cs =>
      cases f2 with
      | zero => simp at h2
      | succ m =>
        simp only [List.length_cons] at h1 h2
        by_cases hc : c = '$'
        · subst hc
          cases cs with
          | nil => rw [substAux_dollar_nil, substAux_dollar_nil, substAux_nil, substAux_nil]
          | cons d rest =>
            simp only [List.length_cons] at h1 h2
            by_cases hd : d = '\x7b'
            · subst hd
              by_cases hne : (rest.takeWhile notBrace).isEmpty = true
              · rw [substAux_empty_name lookup n rest hne,
                    substAux_empty_name lookup m rest hne]
                exact congrArg _ (ih _ _ (by simp; omega) (by simp; omega))
              · cases hdrop : rest.drop (rest.takeWhile notBrace).length with
                | nil =>
                  rw [substAux_drop_nil lookup n rest hne hdrop,
                      substAux_drop_nil lookup m rest hne hdrop]
                  exact congrArg _ (ih _ _ (by simp; omega) (by simp; omega))
                | cons e tail =>
                  have hlt : tail.length < rest.length := by
                    have hlen := congrArg List.length hdrop
                    have htw : (rest.takeWhile notBrace).length ≤ rest.length :=
                      (List.takeWhile_sublist notBrace).length_le
                    have hnm : (rest.takeWhile notBrace).length ≠ 0 := by
                      intro h0
                      exact hne (by simpa [List.isEmpty_iff, List.length_eq_zero] using h0)
                    simp only [List.length_drop, List.length_cons] at hlen
                    omega
                  by_cases he : e = '\x7d'
                  · subst he
                    cases hlook : lookup ((rest.takeWhile notBrace).asString) with
                    | some v =>
                      rw [substAux_hit lookup n rest tail v hne hdrop hlook,
                          substAux_hit lookup m rest tail v hne hdrop hlook]
                      exact congrArg _ (ih _ _ (by omega) (by omega))
                    | none =>
                      rw [substAux_miss lookup n rest tail hne hdrop hlook,
                          substAux_miss lookup m rest tail hne hdrop hlook]
                      exact congrArg _ (congrArg _ (congrArg _ (congrArg _
                        (ih _ _ (by omega) (by omega)))))
                  · rw [substAux_drop_ne lookup n rest e tail hne hdrop he,
                        substAux_drop_ne lookup m rest e tail hne hdrop he]
                    exact congrArg _ (ih _ _ (by simp; omega) (by simp; omega))
            · rw [substAux_dollar_nb lookup n d rest hd,
                  substAux_dollar_nb lookup m d rest hd]
              exact congrArg _ (ih _ _ (by simp; omega) (by simp; omega))
        · rw [substAux_cons_nd lookup n c cs hc, substAux_cons_nd lookup m c cs hc]
          exact congrArg _ (ih _ _ (by omega) (by omega))

lemma substList_nil : substList lookup [] = [] := rfl

lemma substList_cons_nd (c : Char) (cs : List Char) (hc : ¬ c = '$') :
    substList lookup (c :: cs) = c :: substList lookup cs := by
  simp only [substList, List.length_cons]
  rw [substAux_cons_nd lookup cs.length c cs hc]

lemma substList_dollar_nb (cs : List Char) (h : cs.head? ≠ some '\x7b') :
    substList lookup ('$' :: cs) = '$' :: substList lookup cs := by
  cases cs with
  | nil => rfl
  | cons d rest =>
    have hd : ¬ d = '\x7b' := by simpa using h
    simp only [substList, List.length_cons]
    rw [substAux_dollar_nb lookup (rest.length + 1) d rest hd]

lemma takeWhile_append_brace (nm X : List Char) (h : ¬ '\x7d' ∈ nm) :
    (nm ++ '\x7d' :: X).takeWhile notBrace = nm := by
  induction nm with
  | nil => simp [List.takeWhile_cons, notBrace]
  | cons c nm' ih =>
    have hc : notBrace c = true := by
      have : ¬ c = '\x7d' := fun he => h (by simp [he])
      simp [notBrace, this]
    have h' : ¬ '\x7d' ∈ nm' := fun hm => h (List.mem_cons_of_mem _ hm)
    simp only [List.cons_append, List.takeWhile_cons, hc, if_true]
    rw [ih h']

lemma substList_empty_name (rest' : List Char) :
    substList lookup ('$' :: '\x7b' :: '\x7d' :: rest') =
      '$' :: '\x7b' :: '\x7d' :: substList lookup rest' := by
  have hnm : (('\x7d' :: rest').takeWhile notBrace).isEmpty = true := by
    simp [List.takeWhile_cons, notBrace]
  simp only [substList, List.length_cons]
  rw [substAux_empty_name lookup (rest'.length + 2) ('\x7d' :: rest') hnm]
  rw [substAux_cons_nd lookup (rest'.length + 1) '\x7b' ('\x7d' :: rest') (by decide)]
  rw [substAux_cons_nd lookup rest'.length '\x7d' rest' (by decide)]

lemma substList_hit (nm tail : List Char) (v : String)
    (hnm : ¬ '\x7d' ∈ nm) (hne : nm ≠ [])
    (hlook : lookup nm.asString = some v) :
    substList lookup ('$' :: '\x7b' :: (nm ++ '\x7d' :: tail)) =
      v.toList ++ substList lookup tail := by
  have htw : (nm ++ '\x7d' :: tail).takeWhile notBrace = nm := takeWhile_append_brace nm tail hnm
  have hE : ¬ ((nm ++ '\x7d' :: tail).takeWhile notBrace).isEmpty = true := by
    rw [htw]
    simpa [List.isEmpty_iff] using hne
  have hdrop : (nm ++ '\x7d' :: tail).drop
      ((nm ++ '\x7d' :: tail).takeWhile notBrace).length = '\x7d' :: tail := by
    rw [htw, List.drop_left]
  simp only [substList, List.length_cons]
  rw [substAux_hit lookup ((nm ++ '\x7d' :: tail).length + 1) _ tail v hE hdrop
    (by rw [htw]; exact hlook)]
  congr 1
  exact substAux_irrel lookup _ tail _ (by simp [List.length_append]; omega) (le_refl _)

lemma substList_miss (nm tail : List Char)
    (hnm : ¬ '\x7d' ∈ nm) (hne : nm ≠ [])
    (hlook : lookup nm.asString = none) :
    substList lookup ('$' :: '\x7b' :: (nm ++ '\x7d' :: tail)) =
      '$' :: '\x7b' :: (nm ++ '\x7d' :: substList lookup tail) := by
  have htw : (nm ++ '\x7d' :: tail).takeWhile notBrace = nm := takeWhile_append_brace nm tail hnm
  have hE : ¬ ((nm ++ '\x7d' :: tail).takeWhile notBrace).isEmpty = true := by
    rw [htw]
    simpa [List.isEmpty_iff] using hne
  have hdrop : (nm ++ '\x7d' :: tail).drop
      ((nm ++ '\x7d' :: tail).takeWhile notBrace).length = '\x7d' :: tail := by
    rw [htw, List.drop_left]
  simp only [substList, List.length_cons]
  rw [substAux_miss lookup ((nm ++ '\x7d' :: tail).length + 1) _ tail hE hdrop
    (by rw [htw]; exact hlook)]
  rw [htw]
  congr 4
  exact substAux_irrel lookup _ tail _ (by simp [List.length_append]; omega) (le_refl _)

lemma substList_no_brace : ∀ (n : Nat) (l : List Char), l.length ≤ n →
    ¬ '\x7d' ∈ l → substList lookup l = l := by
  intro n
  induction n with
  | zero =>
    intro l h1 _
    have hl : l = [] := List.length_eq_zero.1 (Nat.le_zero.1 h1)
    simp [hl, substList_nil]
  | succ k ih =>
    intro l h1 hbr
    cases l with
    | nil => rfl
    | cons c cs =>
      simp only [List.length_cons] at h1
      have hbcs : ¬ '\x7d' ∈ cs := fun h => hbr (List.mem_cons_of_mem _ h)
      by_cases hc : c = '$'
      · subst hc
        cases cs with
        | nil => rfl
        | cons d rest =>
          have hbrest : ¬ '\x7d' ∈ rest := fun h => hbcs (List.mem_cons_of_mem _ h)
          by_cases hd : d = '\x7b'
          · subst hd
            have htw : rest.takeWhile notBrace = rest := by
              rw [List.takeWhile_eq_self_iff]
              intro x hx
              have : ¬ x = '\x7d' := fun he => hbrest (he ▸ hx)
              simp [notBrace, this]
            have hrec : substList lookup rest = rest := by
              apply ih rest (by simp at h1; omega) hbrest
            by_cases hE : (rest.takeWhile notBrace).isEmpty = true
            · simp only [substList, List.length_cons]
              rw [substAux_empty_name lookup (rest.length + 1) rest hE]
              rw [substAux_cons_nd lookup rest.length '\x7b' rest (by decide)]
              have : substAux lookup rest.length rest = rest := hrec
              rw [this]
            · have hdrop : rest.drop (rest.takeWhile notBrace).length = [] := by
                rw [htw, List.drop_length]
              simp only [substList, List.length_cons]
              rw [substAux_drop_nil lookup (rest.length + 1) rest hE hdrop]
              rw [substAux_cons_nd lookup rest.length '\x7b' rest (by decide)]
              have : substAux lookup rest.length rest = rest := hrec
              rw [this]
          · rw [substList_dollar_nb lookup (d :: rest) (by simpa using hd)]
            rw [ih (d :: rest) (by simpa using h1) hbcs]
      · rw [substList_cons_nd lookup c cs hc, ih cs (by omega) hbcs]

lemma substList_append_clean (v : List Char) (hv : ¬ '$' ∈ v) :
    ∀ X, substList lookup (v ++ X) = v ++ substList lookup X := by
  induction v with
  | nil => intro X; rfl
  | cons c v' ih =>
    intro X
    have hc : ¬ c = '$' := fun he => hv (by simp [he])
    have hv' : ¬ '$' ∈ v' := fun h => hv (List.mem_cons_of_mem _ h)
    rw [List.cons_append, substList_cons_nd lookup c (v' ++ X) hc, ih hv' X]
    rfl

lemma brace_split {rest : List Char} (h : '\x7d' ∈ rest) :
    ∃ tail, rest = (rest.takeWhile notBrace) ++ '\x7d' :: tail ∧
      ¬ '\x7d' ∈ rest.takeWhile notBrace := by
  induction rest with
  | nil => cases h
  | cons c rest' ih =>
    by_cases hc : c = '\x7d'
    · subst hc
      refine ⟨rest', ?_, ?_⟩ <;> simp [List.takeWhile_cons, notBrace]
    · have h' : '\x7d' ∈ rest' := by
        rcases List.mem_cons.1 h with heq | hm
        · exact absurd heq.symm hc
        · exact hm
      obtain ⟨tail, heq, hmem⟩ := ih h'
      have hcb : notBrace c = true := by simp [notBrace, hc]
      refine ⟨tail, ?_, ?_⟩
      · simp only [List.takeWhile_cons, hcb, if_true, List.cons_append]
        exact congrArg (c :: ·) heq
      · simp only [List.takeWhile_cons, hcb, if_true]
        intro hmm
        rcases List.mem_cons.1 hmm with heq2 | hm2
        · exact hc heq2.symm
        · exact hmem hm2

/-- The condition under which the amended C5 holds: every stored value is
nonempty and mentions neither `$` nor an opening brace. -/
def cleanVals (lookup : String → Option String) : Prop :=
  ∀ k v, lookup k = some v →
    v.toList ≠ [] ∧ ¬ '$' ∈ v.toList ∧ ¬ '\x7b' ∈ v.toList

lemma substList_head_nb (hcv : cleanVals lookup) :
    ∀ l : List Char, l.head? ≠ some '\x7b' →
      (substList lookup l).head? ≠ some '\x7b' := by
  intro l hl
  cases l with
  | nil => simp [substList_nil]
  | cons c cs =>
    by_cases hc : c = '$'
    · subst hc
      cases cs with
      | nil =>
        show ¬ (substList lookup ['$']).head? = some '\x7b'
        rw [show substList lookup ['$'] = ['$'] from rfl]
        decide
      | cons d rest =>
        by_cases hd : d = '\x7b'
        · subst hd
          by_cases hbr : '\x7d' ∈ rest
          · obtain ⟨tail, heq, hmem⟩ := brace_split hbr
            by_cases hE : rest.takeWhile notBrace = []
            · rw [hE] at heq
              simp only [List.nil_append] at heq
              rw [heq, substList_empty_name]
              simp
            · cases hlook : lookup ((rest.takeWhile notBrace).asString) with
              | some v =>
                conv_lhs => rw [heq]
                rw [substList_hit lookup _ tail v hmem hE hlook]
                obtain ⟨hvne, hvd, hvb⟩ := hcv _ v hlook
                cases hv : v.toList with
                | nil => exact absurd hv hvne
                | cons a as =>
                  have ha : ¬ a = '\x7b' := by
                    intro he
                    apply hvb
                    rw [hv, he]
                    exact List.mem_cons_self _ _
                  simp [ha]
              | none =>
                conv_lhs => rw [heq]
                rw [substList_miss lookup _ tail hmem hE hlook]
                simp
          · have hble : ¬ '\x7d' ∈ ('$' :: '\x7b' :: rest) := by
              intro hm
              rcases List.mem_cons.1 hm with heq | hm
              · exact absurd heq (by decide)
              · rcases List.mem_cons.1 hm with heq | hm
                · exact absurd heq (by decide)
                · exact hbr hm
            rw [substList_no_brace lookup ('$' :: '\x7b' :: rest).length _ (le_refl _) hble]
            simp
        · rw [substList_dollar_nb lookup (d :: rest) (by simpa using hd)]
          simp
    · rw [substList_cons_nd lookup c cs hc]
      simpa using hl

lemma substList_idem (hcv : cleanVals lookup) :
    ∀ (n : Nat) (l : List Char), l.length ≤ n →
      substList lookup (substList lookup l) = substList lookup l := by
  intro n
  induction n with
  | zero =>
    intro l h1
    have hl : l = [] := List.length_eq_zero.1 (Nat.le_zero.1 h1)
    simp [hl, substList_nil]
  | succ k ih =>
    intro l h1
    cases l with
    | nil => rfl
    | cons c cs =>
      simp only [List.length_cons] at h1
      by_cases hc : c = '$'
      · subst hc
        cases cs with
        | nil => rfl
        | cons d rest =>
          by_cases hd : d = '\x7b'
          · subst hd
            by_cases hbr : '\x7d' ∈ rest
            · obtain ⟨tail, heq, hmem⟩ := brace_split hbr
              have htl : tail.length + 1 ≤ k := by
                have := congrArg List.length heq
                simp only [List.length_append, List.length_cons] at this h1
                omega
              by_cases hE : rest.takeWhile notBrace = []
              · rw [hE] at heq
                simp only [List.nil_append] at heq
                rw [heq, substList_empty_name, substList_empty_name]
                rw [ih tail (by omega)]
              · cases hlook : lookup ((rest.takeWhile notBrace).asString) with
                | some v =>
                  conv_lhs => rw [heq]
                  conv_rhs => rw [heq]
                  rw [substList_hit lookup _ tail v hmem hE hlook]
                  obtain ⟨hvne, hvd, hvb⟩ := hcv _ v hlook
                  rw [substList_append_clean lookup v.toList hvd]
                  rw [ih tail (by omega)]
                | none =>
                  conv_lhs => rw [heq]
                  conv_rhs => rw [heq]
                  rw [substList_miss lookup _ tail hmem hE hlook]
                  have hmiss2 := substList_miss lookup (rest.takeWhile notBrace)
                    (substList lookup tail) hmem hE hlook
                  rw [hmiss2]
                  rw [ih tail (by omega)]
            · have hble : ¬ '\x7d' ∈ ('$' :: '\x7b' :: rest) := by
                intro hm
                rcases List.mem_cons.1 hm with heq | hm
                · exact absurd heq (by decide)
                · rcases List.mem_cons.1 hm with heq | hm
                  · exact absurd heq (by decide)
                  · exact hbr hm
              rw [substList_no_brace lookup ('$' :: '\x7b' :: rest).length _ (le_refl _) hble]
              rw [substList_no_brace lookup ('$' :: '\x7b' :: rest).length _ (le_refl _) hble]
          · rw [substList_dollar_nb lookup (d :: rest) (by simpa using hd)]
            rw [substList_dollar_nb lookup (substList lookup (d :: rest))
              (substList_head_nb lookup hcv (d :: rest) (by simpa using hd))]
            rw [ih (d :: rest) (by simpa using h1)]
      · rw [substList_cons_nd lookup c cs hc]
        rw [substList_cons_nd lookup c (substList lookup cs) hc]
        rw [ih cs (by omega)]

end SubstIdem

/-- C5 (amended): `${VAR}` substitution is idempotent provided every value
stored in the environment is nonempty and contains neither `$` nor `{`;
the counterexample shows the restriction on stored values is necessary. -/
theorem claim_C5_amended (m : EnvMap) (h : cleanVals (mgrGet m)) (s : String) :
    mgrSubst m (mgrSubst m s) = mgrSubst m s := by
  unfold mgrSubst substStr
  rw [show ∀ l : List Char, (l.asString).toList = l from fun _ => rfl]
  rw [substList_idem (mgrGet m) h s.toList.length s.toList (le_refl _)]

/-- C5 witness: a one-entry environment with a plain value satisfies the
amended hypothesis, and substitution on it is idempotent. -/
theorem claim_C5_witness :
    cleanVals (mgrGet [("A", "x")]) ∧
    mgrSubst [("A", "x")] (mgrSubst [("A", "x")] "$\x7bA\x7d") =
      mgrSubst [("A", "x")] "$\x7bA\x7d" := by
  have hcv : cleanVals (mgrGet [("A", "x")]) := by
    intro k v hkv
    by_cases hk : ("A" : String) = k
    · subst hk
      rw [show mgrGet [("A", "x")] "A" = some "x" from rfl] at hkv
      injection hkv with hv
      subst hv
      decide
    · have hnone : mgrGet [("A", "x")] k = none := by
        have : (("A" : String) == k) = false := by simpa using hk
        simp [mgrGet, List.find?, this]
      rw [hnone] at hkv
      cases hkv
  exact ⟨hcv, claim_C5_amended _ hcv _⟩

/-! ## Dependency resolver (C2): `GetBuildOrder` / `BuildOrder`
(pkg/build/dependency.go 11-67, pkg/dependency.go 9-65 — identical logic)

Reverse-indegree Kahn: seed a queue with the zero-indegree packages, emit
the queue as a level, decrement the indegrees of each emitted node's
dependents, and collect the newly-zero nodes as the next queue; error out
when a dependency is undefined or when fewer nodes than packages were
emitted.  Indegrees are `Int` like Go's: a decrement below zero stays
below zero and never re-enqueues a node.  Go iterates its maps in
unspecified order when seeding; the embedding seeds in catalog order
(every property proved is order-independent).  The Go `for len(queue)>0`
loop carries no fuel; fuel `pkgs.length` is provably enough because each
iteration emits at least one fresh package name. -/

/-- The dependency list of the package named `n` (`pkgMap` lookup). -/
def depsOf (pkgs : List Package) (n : String) : List String :=
  match pkgs.find? (fun p => p.name == n) with
  | some p => p.dependsOn
  | none => []

/-- The initial reverse indegree: `reverseInDegree[pkg.Name] = len(pkg.DependsOn)`. -/
def initIndeg (pkgs : List Package) (n : String) : Int :=
  match pkgs.find? (fun p => p.name == n) with
  | some p => (p.dependsOn.length : Int)
  | none => 0

/-- Loop state of one level pass: current indegrees and the queue being
collected for the next level. -/
structure KState where
  indeg : String → Int
  newQueue : List String

/-- `reverseInDegree[dependent]--` followed by the zero check that
enqueues the dependent. -/
def processEdge (st : KState) (dependent : String) : KState :=
  let v := st.indeg dependent - 1
  { indeg := fun x => if x = dependent then v else st.indeg x
    newQueue := if v = 0 then st.newQueue ++ [dependent] else st.newQueue }

/-- Processing one emitted node: decrement each of its dependents. -/
def processNode (g : String → List String) (st : KState) (nm : String) : KState :=
  (g nm).foldl processEdge st

/-- The Kahn loop: emit the queue as a level, process it, recurse. -/
def kahnLoop (g : String → List String) : Nat → (String → Int) → List String → List (List String)
  | _, _, [] => []
  | 0, _, _ => []
  | fuel+1, indeg, queue =>
    let st := queue.foldl (processNode g) ⟨indeg, []⟩
    queue :: kahnLoop g fuel st.indeg st.newQueue

/-- The initial queue: the packages with no dependencies (`reverseInDegree == 0`). -/
def kahnSeed (pkgs : List Package) : List String :=
  (pkgs.filter (fun p => initIndeg pkgs p.name == 0)).map (fun p => p.name)

/-- The level sequence the `for len(queue) > 0` loop accumulates. -/
def kahnLevels (pkgs : List Package) : List (List String) :=
  kahnLoop (reverseGraph pkgs) pkgs.length (initIndeg pkgs) (kahnSeed pkgs)

/-- Translation of `GetBuildOrder` / `BuildOrder`: validate that every
dependency target exists, run Kahn, and flag a cycle when fewer nodes
than packages were processed (`processed` is the sum of level sizes). -/
def getBuildOrder (pkgs : List Package) : Except String (List (List String)) :=
  if !(pkgs.all fun p => p.dependsOn.all fun d => pkgs.any fun q => q.name == d) then
    .error "depends on non-existent package"
  else if ((kahnLevels pkgs).map List.length).sum ≠ pkgs.length then
    .error "circular dependency detected"
  else .ok (kahnLevels pkgs)

lemma foldl_processEdge_indeg : ∀ (E : List String) (st : KState) (x : String),
    (E.foldl processEdge st).indeg x = st.indeg x - (E.count x : Int) := by
  intro E
  induction E with
  | nil => intro st x; simp
  | cons e E ih =>
    intro st x
    rw [List.foldl_cons, ih]
    by_cases hx : x = e
    · subst hx
      simp only [processEdge, if_pos rfl, List.count_cons_self]
      push_cast
      ring
    · have hb : (e == x) = false := by simp [Ne.symm hx]
      simp only [processEdge, if_neg hx, List.count_cons, hb, if_false]
      norm_num

lemma foldl_processEdge_mem : ∀ (E : List String) (st : KState) (x : String),
    x ∈ (E.foldl processEdge st).newQueue ↔
      x ∈ st.newQueue ∨ (0 < st.indeg x ∧ st.indeg x ≤ (E.count x : Int)) := by
  intro E
  induction E with
  | nil =>
    intro st x
    simp only [List.foldl_nil, List.count_nil, Nat.cast_zero]
    constructor
    · exact Or.inl
    · rintro (h | ⟨h1, h2⟩)
      · exact h
      · omega
  | cons e E ih =>
    intro st x
    rw [List.foldl_cons, ih]
    by_cases hx : x = e
    · subst hx
      have hind : (processEdge st x).indeg x = st.indeg x - 1 := by
        simp [processEdge]
      rw [hind, List.count_cons_self]
      by_cases h1 : st.indeg x - 1 = 0
      · have hnq : x ∈ (processEdge st x).newQueue := by
          simp [processEdge, h1]
        have hcnt : (0 : Int) ≤ (E.count x : Int) := Int.natCast_nonneg _
        refine iff_of_true (Or.inl hnq) (Or.inr ⟨by omega, ?_⟩)
        push_cast
        omega
      · have hnq : x ∈ (processEdge st x).newQueue ↔ x ∈ st.newQueue := by
          simp [processEdge, h1]
        rw [hnq]
        by_cases hm : x ∈ st.newQueue
        · simp [hm]
        · simp only [hm, false_or]
          push_cast
          omega
    · have hxe : x ≠ e := hx
      have hnq : x ∈ (processEdge st e).newQueue ↔ x ∈ st.newQueue := by
        simp only [processEdge]
        by_cases h1 : st.indeg e - 1 = 0
        · simp [h1, List.mem_append, hx]
        · simp [h1]
      have hind : (processEdge st e).indeg x = st.indeg x := by
        simp [processEdge, hx]
      have hcnt : (e :: E).count x = E.count x := by
        rw [List.count_cons]
        simp [Ne.symm hxe]
      rw [hnq, hind, hcnt]

lemma foldl_processEdge_nodup : ∀ (E : List String) (st : KState),
    st.newQueue.Nodup → (∀ y ∈ st.newQueue, st.indeg y ≤ 0) →
    (E.foldl processEdge st).newQueue.Nodup := by
  intro E
  induction E with
  | nil => intro st h _; simpa using h
  | cons e E ih =>
    intro st hnd hle
    rw [List.foldl_cons]
    have hq : (processEdge st e).newQueue =
        if st.indeg e - 1 = 0 then st.newQueue ++ [e] else st.newQueue := rfl
    have hi : ∀ y, (processEdge st e).indeg y =
        if y = e then st.indeg e - 1 else st.indeg y := fun _ => rfl
    apply ih
    · rw [hq]
      by_cases h1 : st.indeg e - 1 = 0
      · rw [if_pos h1, List.nodup_append]
        refine ⟨hnd, List.nodup_singleton _, ?_⟩
        intro y hy hy2
        rw [List.mem_singleton] at hy2
        subst hy2
        have := hle y hy
        omega
      · rw [if_neg h1]
        exact hnd
    · intro y hy
      rw [hq] at hy
      rw [hi]
      by_cases h1 : st.indeg e - 1 = 0
      · rw [if_pos h1] at hy
        rcases List.mem_append.1 hy with hy | hy
        · by_cases hye : y = e
          · rw [if_pos hye]
            omega
          · rw [if_neg hye]
            exact hle y hy
        · rw [List.mem_singleton] at hy
          rw [if_pos hy]
          omega
      · rw [if_neg h1] at hy
        by_cases hye : y = e
        · rw [if_pos hye]
          have := hle y hy
          rw [hye] at this
          omega
        · rw [if_neg hye]
          exact hle y hy

lemma foldl_processNode_eq (g : String → List String) :
    ∀ (queue : List String) (st : KState),
      queue.foldl (processNode g) st = (queue.flatMap g).foldl processEdge st := by
  intro queue
  induction queue with
  | nil => intro st; rfl
  | cons q qs ih =>
    intro st
    rw [List.foldl_cons, List.flatMap_cons, List.foldl_append, ih]
    rfl

lemma count_flatMap (l : List String) (f : String → List String) (x : String) :
    (l.flatMap f).count x = (l.map (fun a => (f a).count x)).sum := by
  induction l with
  | nil => simp
  | cons a l ih => simp [List.flatMap_cons, List.count_append, ih]

lemma count_map_const (l : List String) (c x : String) :
    ((l.map (fun _ => c)).count x) = if x = c then l.length else 0 := by
  induction l with
  | nil => simp
  | cons a l ih =>
    rw [List.map_cons, List.count_cons, ih]
    by_cases hx : x = c
    · subst hx
      simp
    · have hb : (c == x) = false := by simp [Ne.symm hx]
      simp [hb, hx]

lemma filter_beq_length (l : List String) (s : String) :
    (l.filter (fun x => x == s)).length = l.count s := by
  induction l with
  | nil => simp
  | cons a l ih =>
    by_cases ha : a = s
    · subst ha
      simp [List.filter_cons, List.count_cons, ih]
    · have hb : (a == s) = false := by simp [ha]
      simp [List.filter_cons, List.count_cons, hb, ih]

lemma count_reverseGraph : ∀ {pkgs : List Package},
    (pkgs.map Package.name).Nodup → ∀ (s x : String),
    (reverseGraph pkgs s).count x = (depsOf pkgs x).count s := by
  intro pkgs
  induction pkgs with
  | nil =>
    intro _ s x
    simp [reverseGraph, depsOf]
  | cons p rest ih =>
    intro hnd s x
    rw [List.map_cons, List.nodup_cons] at hnd
    obtain ⟨hpn, hnd'⟩ := hnd
    have hsplit : reverseGraph (p :: rest) s =
        ((p.dependsOn.filter (fun y => y == s)).map (fun _ => p.name)) ++
          reverseGraph rest s := by
      simp [reverseGraph]
    rw [hsplit, List.count_append, count_map_const]
    by_cases hx : x = p.name
    · have hz : (reverseGraph rest s).count x = 0 := by
        rw [List.count_eq_zero]
        intro hmem
        exact hpn (hx ▸ reverseGraph_mem_names hmem)
      have hdx : depsOf (p :: rest) x = p.dependsOn := by
        have hb : (p.name == x) = true := by simp [hx]
        simp [depsOf, List.find?, hb]
      rw [hz, hdx, if_pos hx, filter_beq_length]
      omega
    · have hb : (p.name == x) = false := by simp [Ne.symm hx]
      have hdx : depsOf (p :: rest) x = depsOf rest x := by
        simp [depsOf, List.find?, hb]
      rw [hdx, if_neg hx, ih hnd' s x]
      omega

lemma sum_map_add (l : List String) (f h : String → Nat) :
    (l.map (fun s => f s + h s)).sum = (l.map f).sum + (l.map h).sum := by
  induction l with
  | nil => simp
  | cons a l ih => simp [ih]; omega

lemma count_nodup (l : List String) (d : String) (h : l.Nodup) :
    l.count d = if d ∈ l then 1 else 0 := by
  induction l with
  | nil => simp
  | cons a l ih =>
    rw [List.nodup_cons] at h
    obtain ⟨hal, hnd⟩ := h
    by_cases had : a = d
    · subst had
      simp [List.count_cons, ih hnd, hal]
    · have hb : (a == d) = false := by simp [had]
      have hda : ¬ d = a := fun he => had he.symm
      simp [List.count_cons, hb, ih hnd, List.mem_cons, hda]

lemma sum_indicator_eq_count (queue : List String) (d : String) :
    (queue.map (fun s => if s = d then 1 else 0)).sum = queue.count d := by
  induction queue with
  | nil => simp
  | cons a q ih =>
    rw [List.map_cons, List.sum_cons, List.count_cons, ih]
    by_cases had : a = d
    · have hb : (a == d) = true := by simp [had]
      rw [if_pos had, hb]
      simp [Nat.add_comm]
    · have hb : (a == d) = false := by simp [had]
      rw [if_neg had, hb]
      simp

lemma sum_count_eq_filter_length (L : List String) :
    ∀ (queue : List String), queue.Nodup →
      (queue.map (fun s => L.count s)).sum =
        (L.filter (fun d => decide (d ∈ queue))).length := by
  induction L with
  | nil => intro queue _; simp
  | cons d L ih =>
    intro queue hq
    have hcnt : ∀ s, (d :: L).count s = L.count s + (if s = d then 1 else 0) := by
      intro s
      by_cases hs : s = d
      · subst hs
        simp [List.count_cons]
      · have hb : (d == s) = false := by simp [Ne.symm hs]
        simp [List.count_cons, hb, hs]
    have h1 : (queue.map (fun s => (d :: L).count s)).sum =
        (queue.map (fun s => L.count s)).sum +
          (queue.map (fun s => if s = d then 1 else 0)).sum := by
      calc (queue.map (fun s => (d :: L).count s)).sum
          = (queue.map (fun s => L.count s + (if s = d then 1 else 0))).sum := by
            congr 1
            exact List.map_congr_left (fun s _ => hcnt s)
        _ = _ := sum_map_add queue _ _
    have h2 : (queue.map (fun s => if s = d then 1 else 0)).sum =
        if d ∈ queue then 1 else 0 := by
      rw [sum_indicator_eq_count, count_nodup queue d hq]
    rw [h1, h2, ih queue hq]
    have hsplit : (d :: L).filter (fun x => decide (x ∈ queue)) =
        (if d ∈ queue then [d] else []) ++ L.filter (fun x => decide (x ∈ queue)) := by
      by_cases hd : d ∈ queue <;> simp [List.filter_cons, hd]
    rw [hsplit]
    by_cases hd : d ∈ queue <;> simp [hd]

/-- The complement-of-a-visited-set predicate the invariant filters with
(a named `Bool` predicate keeps the statements stable). -/
def notIn (S : List String) (d : String) : Bool := decide (¬ d ∈ S)

lemma notIn_eq_true {S : List String} {d : String} : notIn S d = true ↔ ¬ d ∈ S := by
  simp [notIn]

lemma filter_split_length (L S queue : List String)
    (hdisj : ∀ d ∈ queue, ¬ d ∈ S) :
    (L.filter (notIn S)).length =
      (L.filter (fun d => decide (d ∈ queue))).length +
      (L.filter (notIn (S ++ queue))).length := by
  induction L with
  | nil => simp
  | cons d L ih =>
    by_cases hdq : d ∈ queue
    · have hdS : ¬ d ∈ S := hdisj d hdq
      have c1 : notIn S d = true := notIn_eq_true.2 hdS
      have c2 : decide (d ∈ queue) = true := by simp [hdq]
      have c3 : notIn (S ++ queue) d = false := by
        simp [notIn, List.mem_append, hdq]
      simp only [List.filter_cons, c1, c2, c3, if_true, Bool.false_eq_true, if_false,
        List.length_cons]
      omega
    · by_cases hdS : d ∈ S
      · have c1 : notIn S d = false := by simp [notIn, hdS]
        have c2 : decide (d ∈ queue) = false := by simp [hdq]
        have c3 : notIn (S ++ queue) d = false := by
          simp [notIn, List.mem_append, hdS]
        simp only [List.filter_cons, c1, c2, c3, Bool.false_eq_true, if_false]
        omega
      · have c1 : notIn S d = true := notIn_eq_true.2 hdS
        have c2 : decide (d ∈ queue) = false := by simp [hdq]
        have c3 : notIn (S ++ queue) d = true := by
          simp [notIn, List.mem_append, hdS, hdq]
        simp only [List.filter_cons, c1, c2, c3, if_true, Bool.false_eq_true, if_false,
          List.length_cons]
        omega

lemma nodup_subset_length_le {l names : List String} (h : l.Nodup)
    (hsub : ∀ x ∈ l, x ∈ names) : l.length ≤ names.length := by
  calc l.length = l.toFinset.card := (List.toFinset_card_of_nodup h).symm
    _ ≤ names.toFinset.card := by
        apply Finset.card_le_card
        intro x hx
        exact List.mem_toFinset.2 (hsub x (List.mem_toFinset.1 hx))
    _ ≤ names.length := names.toFinset_card_le

lemma mem_take_flatten (x : String) : ∀ (r : List (List String)) (i : Nat),
    x ∈ (r.take i).flatten → ∃ j, j < i ∧ ∃ lvl, r[j]? = some lvl ∧ x ∈ lvl := by
  intro r
  induction r with
  | nil => intro i hx; simp at hx
  | cons l r ih =>
    intro i hx
    cases i with
    | zero => simp at hx
    | succ i =>
      rw [List.take_succ_cons, List.flatten_cons, List.mem_append] at hx
      rcases hx with hx | hx
      · exact ⟨0, Nat.succ_pos _, l, List.getElem?_cons_zero, hx⟩
      · obtain ⟨j, hj, lvl, hget, hmem⟩ := ih i hx
        exact ⟨j + 1, Nat.succ_lt_succ hj, lvl, by simpa using hget, hmem⟩

lemma mem_depsOf {pkgs : List Package} {x d : String} (h : d ∈ depsOf pkgs x) :
    ∃ p ∈ pkgs, p.name = x ∧ d ∈ p.dependsOn := by
  cases hf : pkgs.find? (fun p => p.name == x) with
  | none =>
    simp only [depsOf, hf] at h
    exact absurd h (List.not_mem_nil d)
  | some p =>
    simp only [depsOf, hf] at h
    have hp := List.mem_of_find?_eq_some hf
    have hname : p.name = x := by simpa using List.find?_some hf
    exact ⟨p, hp, hname, h⟩

lemma depsOf_name {pkgs : List Package} {x : String} (h : depsOf pkgs x ≠ []) :
    x ∈ pkgs.map Package.name := by
  obtain ⟨d, hd⟩ := List.exists_mem_of_ne_nil _ h
  obtain ⟨p, hp, hname, -⟩ := mem_depsOf hd
  exact List.mem_map.2 ⟨p, hp, hname⟩

lemma depsOf_eq {pkgs : List Package} (hnd : (pkgs.map Package.name).Nodup)
    {p : Package} (hp : p ∈ pkgs) : depsOf pkgs p.name = p.dependsOn := by
  induction pkgs with
  | nil => cases hp
  | cons q rest ih =>
    rw [List.map_cons, List.nodup_cons] at hnd
    obtain ⟨hqn, hnd'⟩ := hnd
    rcases List.mem_cons.1 hp with rfl | hp'
    · simp [depsOf, List.find?]
    · have hb : (q.name == p.name) = false := by
        simp only [beq_eq_false_iff_ne, ne_eq]
        intro he
        apply hqn
        rw [he]
        exact List.mem_map.2 ⟨p, hp', rfl⟩
      have hstep : depsOf (q :: rest) p.name = depsOf rest p.name := by
        simp [depsOf, List.find?, hb]
      rw [hstep, ih hnd' hp']

lemma initIndeg_eq (pkgs : List Package) (x : String) :
    initIndeg pkgs x = ((depsOf pkgs x).length : Int) := by
  unfold initIndeg depsOf
  cases pkgs.find? (fun p => p.name == x) <;> simp

lemma kahnLoop_nil (g : String → List String) (fuel : Nat) (indeg : String → Int) :
    kahnLoop g fuel indeg [] = [] := by
  cases fuel <;> rfl

lemma kahnLoop_cons (g : String → List String) (f : Nat) (indeg : String → Int)
    (q0 : String) (qs : List String) :
    kahnLoop g (f + 1) indeg (q0 :: qs) =
      (q0 :: qs) :: kahnLoop g f
        ((q0 :: qs).foldl (processNode g) ⟨indeg, []⟩).indeg
        ((q0 :: qs).foldl (processNode g) ⟨indeg, []⟩).newQueue := rfl

/-- One level pass of the Kahn loop: the updated indegrees count the
dependencies still outside the enlarged visited set `S ++ Q`, and the new
queue collects exactly the nodes whose last outside dependency was in `Q`. -/
lemma level_step (pkgs : List Package) (hnd : (pkgs.map Package.name).Nodup)
    (S Q : List String) (indeg : String → Int)
    (h1 : (S ++ Q).Nodup)
    (h5 : ∀ x, indeg x = (((depsOf pkgs x).filter (notIn S)).length : Int)) :
    (∀ x, (Q.foldl (processNode (reverseGraph pkgs)) ⟨indeg, []⟩).indeg x =
      (((depsOf pkgs x).filter (notIn (S ++ Q))).length : Int)) ∧
    (∀ x, x ∈ (Q.foldl (processNode (reverseGraph pkgs)) ⟨indeg, []⟩).newQueue ↔
      ((depsOf pkgs x).filter (notIn (S ++ Q)) = [] ∧
        0 < ((depsOf pkgs x).filter (notIn S)).length)) ∧
    (Q.foldl (processNode (reverseGraph pkgs)) ⟨indeg, []⟩).newQueue.Nodup := by
  have hQnd : Q.Nodup := (List.nodup_append.1 h1).2.1
  have hdisj : ∀ d ∈ Q, ¬ d ∈ S := fun d hd hS => (List.nodup_append.1 h1).2.2 hS hd
  rw [foldl_processNode_eq]
  have hcount : ∀ x, (Q.flatMap (reverseGraph pkgs)).count x =
      ((depsOf pkgs x).filter (fun d => decide (d ∈ Q))).length := by
    intro x
    rw [count_flatMap]
    have h12 : (Q.map (fun a => (reverseGraph pkgs a).count x)) =
        (Q.map (fun s => (depsOf pkgs x).count s)) :=
      List.map_congr_left (fun s _ => count_reverseGraph hnd s x)
    rw [h12]
    exact sum_count_eq_filter_length _ _ hQnd
  have hsplit : ∀ x, ((depsOf pkgs x).filter (notIn S)).length =
      ((depsOf pkgs x).filter (fun d => decide (d ∈ Q))).length +
      ((depsOf pkgs x).filter (notIn (S ++ Q))).length :=
    fun x => filter_split_length _ _ _ hdisj
  refine ⟨?_, ?_, ?_⟩
  · intro x
    rw [foldl_processEdge_indeg]
    show indeg x - ((Q.flatMap (reverseGraph pkgs)).count x : Int) = _
    rw [h5 x, hcount x]
    have hs := hsplit x
    omega
  · intro x
    rw [foldl_processEdge_mem]
    have hproj1 : (⟨indeg, []⟩ : KState).newQueue = [] := rfl
    have hproj2 : (⟨indeg, []⟩ : KState).indeg = indeg := rfl
    rw [hproj1, hproj2]
    simp only [List.not_mem_nil, false_or]
    rw [h5 x, hcount x]
    have hs := hsplit x
    constructor
    · rintro ⟨hpos, hle⟩
      have hQz : ((depsOf pkgs x).filter (notIn (S ++ Q))).length = 0 := by omega
      exact ⟨List.length_eq_zero.1 hQz, by omega⟩
    · rintro ⟨hnil, hpos⟩
      have hz : ((depsOf pkgs x).filter (notIn (S ++ Q))).length = 0 := by
        rw [hnil]
        rfl
      exact ⟨by omega, by omega⟩
  · apply foldl_processEdge_nodup
    · exact List.nodup_nil
    · intro y hy
      exact absurd hy (List.not_mem_nil y)

/-- The terminated loop (empty queue): with the saturation invariant, every
package missing from the visited set still has an unvisited dependency. -/
lemma kahn_base (pkgs : List Package) (S queue : List String)
    (h1 : (S ++ queue).Nodup)
    (h7 : ∀ x ∈ pkgs.map Package.name,
      (depsOf pkgs x).filter (notIn S) = [] → x ∈ S ∨ x ∈ queue)
    (hq : queue = []) (r : List (List String)) (hr : r = []) :
    (S ++ r.flatten).Nodup ∧
    (∀ x ∈ r.flatten, x ∈ pkgs.map Package.name) ∧
    (∀ i lvl, r[i]? = some lvl → ∀ nm ∈ lvl, ∀ d ∈ depsOf pkgs nm,
      d ∈ S ∨ d ∈ (r.take i).flatten) ∧
    (∀ x ∈ pkgs.map Package.name, ¬ x ∈ S → ¬ x ∈ r.flatten →
      ∃ d ∈ depsOf pkgs x, ¬ d ∈ S ∧ ¬ d ∈ r.flatten) := by
  subst hq hr
  refine ⟨by simpa using h1, by simp, by simp, ?_⟩
  intro x hxN hxS _
  by_cases hfil : (depsOf pkgs x).filter (notIn S) = []
  · rcases h7 x hxN hfil with h | h
    · exact absurd h hxS
    · exact absurd h (List.not_mem_nil x)
  · obtain ⟨d, hd⟩ := List.exists_mem_of_ne_nil _ hfil
    rw [List.mem_filter] at hd
    exact ⟨d, hd.1, notIn_eq_true.1 hd.2, by simp⟩

/-- The Kahn loop invariant: starting from a visited set `S` whose members'
dependencies are all inside `S`, a queue of fresh nodes whose dependencies
are all inside `S`, indegrees counting the dependencies outside `S`, and a
saturated frontier (every package with no dependency outside `S` is in `S`
or queued), the loop emits levels that (1) stay disjoint from `S` and
duplicate-free, (2) name only catalog packages, (3) have each emitted
node's dependencies inside `S` or a strictly earlier level, and (4) leave
every unemitted package with an unemitted dependency. -/
lemma kahnLoop_spec (pkgs : List Package)
    (hnd : (pkgs.map Package.name).Nodup) :
    ∀ (fuel : Nat) (S : List String) (indeg : String → Int) (queue : List String),
    (S ++ queue).Nodup →
    (∀ x ∈ S ++ queue, x ∈ pkgs.map Package.name) →
    (∀ n ∈ queue, ∀ d ∈ depsOf pkgs n, d ∈ S) →
    (∀ n ∈ S, ∀ d ∈ depsOf pkgs n, d ∈ S) →
    (∀ x, indeg x = (((depsOf pkgs x).filter (notIn S)).length : Int)) →
    (∀ x ∈ pkgs.map Package.name,
      (depsOf pkgs x).filter (notIn S) = [] → x ∈ S ∨ x ∈ queue) →
    ((pkgs.map Package.name).length ≤ fuel + S.length) →
    (S ++ (kahnLoop (reverseGraph pkgs) fuel indeg queue).flatten).Nodup ∧
    (∀ x ∈ (kahnLoop (reverseGraph pkgs) fuel indeg queue).flatten,
      x ∈ pkgs.map Package.name) ∧
    (∀ i lvl, (kahnLoop (reverseGraph pkgs) fuel indeg queue)[i]? = some lvl →
      ∀ nm ∈ lvl, ∀ d ∈ depsOf pkgs nm,
        d ∈ S ∨ d ∈ ((kahnLoop (reverseGraph pkgs) fuel indeg queue).take i).flatten) ∧
    (∀ x ∈ pkgs.map Package.name, ¬ x ∈ S →
      ¬ x ∈ (kahnLoop (reverseGraph pkgs) fuel indeg queue).flatten →
      ∃ d ∈ depsOf pkgs x, ¬ d ∈ S ∧
        ¬ d ∈ (kahnLoop (reverseGraph pkgs) fuel indeg queue).flatten) := by
  intro fuel
  induction fuel with
  | zero =>
    intro S indeg queue h1 h2 h3 h4 h5 h7 hfuel
    have hle := nodup_subset_length_le h1 h2
    rw [List.length_append] at hle
    have hq : queue = [] := List.length_eq_zero.1 (by omega)
    have hr : kahnLoop (reverseGraph pkgs) 0 indeg queue = [] := by
      rw [hq, kahnLoop_nil]
    exact kahn_base pkgs S queue h1 h7 hq _ hr
  | succ f ih =>
    intro S indeg queue h1 h2 h3 h4 h5 h7 hfuel
    cases queue with
    | nil =>
      exact kahn_base pkgs S [] h1 h7 rfl _ (kahnLoop_nil _ _ _)
    | cons q0 qs =>
      obtain ⟨hstep1, hstep2, hstep3⟩ :=
        level_step pkgs hnd S (q0 :: qs) indeg h1 h5
      rw [kahnLoop_cons]
      set st : KState :=
        (q0 :: qs).foldl (processNode (reverseGraph pkgs)) ⟨indeg, []⟩ with hst
      have hzero : ∀ x ∈ S ++ q0 :: qs,
          (depsOf pkgs x).filter (notIn S) = [] := by
        intro x hx
        rw [List.filter_eq_nil_iff]
        intro d hd
        have hdS : d ∈ S := by
          rcases List.mem_append.1 hx with h | h
          · exact h4 x h d hd
          · exact h3 x h d hd
        simp [notIn, hdS]
      have hnq_sub : ∀ x ∈ st.newQueue, x ∈ pkgs.map Package.name := by
        intro x hx
        obtain ⟨hnil, hpos⟩ := (hstep2 x).1 hx
        have hne : depsOf pkgs x ≠ [] := by
          intro h0
          rw [h0] at hpos
          simp at hpos
        exact depsOf_name hne
      have hnq_fresh : ∀ x ∈ st.newQueue, ¬ x ∈ S ++ q0 :: qs := by
        intro x hx hmem
        obtain ⟨hnil, hpos⟩ := (hstep2 x).1 hx
        have hzx := hzero x hmem
        rw [hzx] at hpos
        simp at hpos
      have h1' : ((S ++ q0 :: qs) ++ st.newQueue).Nodup := by
        rw [List.nodup_append]
        refine ⟨h1, hstep3, ?_⟩
        intro a ha ha'
        exact hnq_fresh a ha' ha
      have h2' : ∀ x ∈ (S ++ q0 :: qs) ++ st.newQueue,
          x ∈ pkgs.map Package.name := by
        intro x hx
        rcases List.mem_append.1 hx with h | h
        · exact h2 x h
        · exact hnq_sub x h
      have h3' : ∀ n ∈ st.newQueue, ∀ d ∈ depsOf pkgs n, d ∈ S ++ q0 :: qs := by
        intro n hn d hd
        obtain ⟨hnil, -⟩ := (hstep2 n).1 hn
        have hp := List.filter_eq_nil_iff.1 hnil d hd
        by_contra hc
        exact hp (notIn_eq_true.2 hc)
      have h4' : ∀ n ∈ S ++ q0 :: qs, ∀ d ∈ depsOf pkgs n,
          d ∈ S ++ q0 :: qs := by
        intro n hn d hd
        have hzn := hzero n hn
        have hp := List.filter_eq_nil_iff.1 hzn d hd
        by_contra hc
        have hdS : ¬ d ∈ S := fun h => hc (List.mem_append.2 (Or.inl h))
        exact hp (notIn_eq_true.2 hdS)
      have h7' : ∀ x ∈ pkgs.map Package.name,
          (depsOf pkgs x).filter (notIn (S ++ q0 :: qs)) = [] →
          x ∈ S ++ q0 :: qs ∨ x ∈ st.newQueue := by
        intro x hxN hnil
        by_cases hfs : (depsOf pkgs x).filter (notIn S) = []
        · rcases h7 x hxN hfs with h | h
          · exact Or.inl (List.mem_append.2 (Or.inl h))
          · exact Or.inl (List.mem_append.2 (Or.inr h))
        · exact Or.inr ((hstep2 x).2 ⟨hnil, List.length_pos.2 hfs⟩)
      have hfuel' : (pkgs.map Package.name).length ≤ f + (S ++ q0 :: qs).length := by
        rw [List.length_append, List.length_cons]
        omega
      obtain ⟨c1, c2, c3, c4⟩ := ih (S ++ q0 :: qs) st.indeg st.newQueue
        h1' h2' h3' h4' hstep1 h7' hfuel'
      set r' := kahnLoop (reverseGraph pkgs) f st.indeg st.newQueue with hr'
      refine ⟨?_, ?_, ?_, ?_⟩
      · rw [List.flatten_cons, ← List.append_assoc]
        exact c1
      · intro x hx
        rw [List.flatten_cons, List.mem_append] at hx
        rcases hx with hx | hx
        · exact h2 x (List.mem_append.2 (Or.inr hx))
        · exact c2 x hx
      · intro i lvl hget nm hnm d hd
        cases i with
        | zero =>
          have hlvl : lvl = q0 :: qs := by
            have := hget
            simp only [List.getElem?_cons_zero, Option.some.injEq] at this
            exact this.symm
          subst hlvl
          exact Or.inl (h3 nm hnm d hd)
        | succ j =>
          rw [List.getElem?_cons_succ] at hget
          have hc := c3 j lvl hget nm hnm d hd
          rw [List.take_succ_cons, List.flatten_cons]
          rcases hc with h | h
          · rcases List.mem_append.1 h with h | h
            · exact Or.inl h
            · exact Or.inr (List.mem_append.2 (Or.inl h))
          · exact Or.inr (List.mem_append.2 (Or.inr h))
      · intro x hxN hxS hxF
        rw [List.flatten_cons, List.mem_append] at hxF
        push_neg at hxF
        obtain ⟨hxQ, hxr⟩ := hxF
        have hxS' : ¬ x ∈ S ++ q0 :: qs := by
          rw [List.mem_append]
          push_neg
          exact ⟨hxS, hxQ⟩
        obtain ⟨d, hd, hdS', hdr⟩ := c4 x hxN hxS' hxr
        rw [List.mem_append] at hdS'
        push_neg at hdS'
        refine ⟨d, hd, hdS'.1, ?_⟩
        rw [List.flatten_cons, List.mem_append]
        push_neg
        exact ⟨hdS'.2, hdr⟩

lemma kahnLevels_def (pkgs : List Package) :
    kahnLevels pkgs =
      kahnLoop (reverseGraph pkgs) pkgs.length (initIndeg pkgs) (kahnSeed pkgs) := rfl

lemma filter_notIn_nil (l : List String) : l.filter (notIn []) = l := by
  apply List.filter_eq_self.2
  intro a _
  simp [notIn]

/-- **C2** — For a catalog whose `depends_on` targets are all defined and
whose dependency graph is acyclic (and whose package names are distinct, as
the Go `map[string]*Package` catalog guarantees), `GetBuildOrder` /
`BuildOrder` succeeds with a sequence of levels whose concatenation is a
permutation of the catalog's package names, and every dependency of a
package appears in a strictly earlier level than the package itself. -/
theorem claim_C2 (pkgs : List Package)
    (hnd : (pkgs.map Package.name).Nodup)
    (hdef : ∀ p ∈ pkgs, ∀ d ∈ p.dependsOn, ∃ q ∈ pkgs, q.name = d)
    (hwf : WellFounded (depEdge pkgs)) :
    ∃ levels : List (List String), getBuildOrder pkgs = .ok levels ∧
      levels.flatten.Perm (pkgs.map Package.name) ∧
      ∀ p ∈ pkgs, ∀ (i : Nat) (lvl : List String),
        levels[i]? = some lvl → p.name ∈ lvl →
        ∀ d ∈ p.dependsOn,
          ∃ j : Nat, j < i ∧
            ∃ lvl' : List String, levels[j]? = some lvl' ∧ d ∈ lvl' := by
  have hseednd : (kahnSeed pkgs).Nodup :=
    hnd.sublist (List.Sublist.map Package.name (List.filter_sublist pkgs))
  have hseedmem : ∀ x ∈ kahnSeed pkgs, x ∈ pkgs.map Package.name := by
    intro x hx
    obtain ⟨p, hp, rfl⟩ := List.mem_map.1 hx
    exact List.mem_map.2 ⟨p, (List.mem_filter.1 hp).1, rfl⟩
  have hseeddeps : ∀ n ∈ kahnSeed pkgs, ∀ d ∈ depsOf pkgs n,
      d ∈ ([] : List String) := by
    intro n hn d hd
    obtain ⟨p, hp, rfl⟩ := List.mem_map.1 hn
    obtain ⟨-, hz⟩ := List.mem_filter.1 hp
    have hz' : initIndeg pkgs p.name = 0 := by simpa using hz
    rw [initIndeg_eq] at hz'
    have h0 : depsOf pkgs p.name = [] :=
      List.length_eq_zero.1 (by exact_mod_cast hz')
    rw [h0] at hd
    exact absurd hd (List.not_mem_nil d)
  have hseed7 : ∀ x ∈ pkgs.map Package.name,
      (depsOf pkgs x).filter (notIn ([] : List String)) = [] →
      x ∈ ([] : List String) ∨ x ∈ kahnSeed pkgs := by
    intro x hxN hnil
    rw [filter_notIn_nil] at hnil
    obtain ⟨p, hp, rfl⟩ := List.mem_map.1 hxN
    refine Or.inr (List.mem_map.2 ⟨p, List.mem_filter.2 ⟨hp, ?_⟩, rfl⟩)
    simp [initIndeg_eq, hnil]
  have h5init : ∀ x, initIndeg pkgs x =
      (((depsOf pkgs x).filter (notIn ([] : List String))).length : Int) := by
    intro x
    rw [filter_notIn_nil, initIndeg_eq]
  obtain ⟨c1, c2, c3, c4⟩ := kahnLoop_spec pkgs hnd pkgs.length []
    (initIndeg pkgs) (kahnSeed pkgs)
    (by simpa using hseednd) (by simpa using hseedmem) hseeddeps (by simp)
    h5init hseed7 (by simp)
  rw [← kahnLevels_def] at c1 c2 c3 c4
  have hcomplete : ∀ x ∈ pkgs.map Package.name, x ∈ (kahnLevels pkgs).flatten := by
    by_contra hcon
    push_neg at hcon
    obtain ⟨x0, hx0N, hx0F⟩ := hcon
    obtain ⟨m, hm, hmin⟩ := hwf.has_min
      {x | x ∈ pkgs.map Package.name ∧ ¬ x ∈ (kahnLevels pkgs).flatten}
      ⟨x0, hx0N, hx0F⟩
    obtain ⟨hmN, hmF⟩ := hm
    obtain ⟨d, hd, -, hdF⟩ := c4 m hmN (List.not_mem_nil m) hmF
    have hdN : d ∈ pkgs.map Package.name := by
      obtain ⟨p, hp, hpn, hdp⟩ := mem_depsOf hd
      obtain ⟨q, hq, hqd⟩ := hdef p hp d hdp
      exact List.mem_map.2 ⟨q, hq, hqd⟩
    have hedge : depEdge pkgs d m := mem_depsOf hd
    exact hmin d ⟨hdN, hdF⟩ hedge
  have hflatnd : (kahnLevels pkgs).flatten.Nodup := by simpa using c1
  have hperm : (kahnLevels pkgs).flatten.Perm (pkgs.map Package.name) :=
    (List.perm_ext_iff_of_nodup hflatnd hnd).2
      (fun a => ⟨fun h => c2 a h, fun h => hcomplete a h⟩)
  have hcheck :
      (pkgs.all fun p => p.dependsOn.all fun d => pkgs.any fun q => q.name == d)
        = true := by
    simp only [List.all_eq_true, List.any_eq_true]
    intro p hp d hd
    obtain ⟨q, hq, hqd⟩ := hdef p hp d hd
    exact ⟨q, hq, by simp [hqd]⟩
  have hlen : ((kahnLevels pkgs).map List.length).sum = pkgs.length := by
    rw [← List.length_flatten, hperm.length_eq, List.length_map]
  refine ⟨kahnLevels pkgs, ?_, hperm, ?_⟩
  · unfold getBuildOrder
    rw [if_neg (by rw [hcheck]; simp), if_neg (fun h => h hlen)]
  · intro p hp i lvl hget hpl d hd
    have hdeps : d ∈ depsOf pkgs p.name := by
      rw [depsOf_eq hnd hp]
      exact hd
    rcases c3 i lvl hget p.name hpl d hdeps with h | h
    · exact absurd h (List.not_mem_nil d)
    · exact mem_take_flatten d _ i h

/-- Witness for `claim_C2` on the two-package catalog `b depends on a`:
its hypotheses hold and `GetBuildOrder` yields valid ordered levels. -/
theorem claim_C2_witness :
    ((pkgsAB.map Package.name).Nodup ∧
      (∀ p ∈ pkgsAB, ∀ d ∈ p.dependsOn, ∃ q ∈ pkgsAB, q.name = d)) ∧
    ∃ levels : List (List String), getBuildOrder pkgsAB = .ok levels ∧
      levels.flatten.Perm (pkgsAB.map Package.name) ∧
      ∀ p ∈ pkgsAB, ∀ (i : Nat) (lvl : List String),
        levels[i]? = some lvl → p.name ∈ lvl →
        ∀ d ∈ p.dependsOn,
          ∃ j : Nat, j < i ∧
            ∃ lvl' : List String, levels[j]? = some lvl' ∧ d ∈ lvl' :=
  ⟨⟨by decide, by decide⟩,
    claim_C2 pkgsAB (by decide) (by decide) wf_depEdge_pkgsAB⟩

end Makepkg
